import Mathlib

/-!
# Verification of the ascii-map core against its specification

This file gives a shallow embedding, in Lean 4, of the core of the
`ascii-map` repository (`maps/mvt_decoder.py`, `maps/render.py`,
`maps/ascii_map.py`, `maps/tiles.py`, `maps/coords.py`) and proves or
refutes a list of claims about it.

Modelling conventions:
* Python `bytes` values are `List Nat` (one natural per byte).
* Python strings that only ever flow through equality tests are kept as
  their UTF-8 byte lists (`decode("utf-8", errors="replace")` maps the
  empty byte string to the empty string and nonempty byte strings to
  nonempty strings, which is all the claims need).
* Python machine floats are modelled by exact arithmetic: `ℚ` where the
  code only ever divides integers (scanline fill, signed area), `ℝ` where
  the code uses transcendental functions (Web-Mercator math).
* Python exceptions are modelled by `Except Unit`; a `try/except` that
  swallows every exception becomes a `match` on the `Except` value.
* Python `int(x)` on a float truncates toward zero.
-/

namespace AsciiMap

namespace Mvt

/-- Python `bytes` modelled as a list of naturals. -/
abbrev Bytes := List Nat

/-- `_read_varint` (mvt_decoder.py): little-endian base-128 varint with MSB
continuation bit; raises `ValueError` (`.error ()`) when the buffer ends
mid-sequence.  `result` and `shift` are the loop accumulators.  The loop
is given explicit fuel so that it is structurally recursive (and hence
kernel-evaluable); the fuel passed by `readVarint` exceeds the maximal
number of iterations, and `readVarintAux_fuel_irrel` below shows the
bound is invisible. -/
def readVarintAux (buf : Bytes) : Nat → Nat → Nat → Nat → Except Unit (Nat × Nat)
  | 0, _, _, _ => .error ()
  | fuel + 1, pos, result, shift =>
    if h : pos < buf.length then
      if buf.get ⟨pos, h⟩ &&& 0x80 = 0 then
        .ok (result ||| ((buf.get ⟨pos, h⟩ &&& 0x7F) <<< shift), pos + 1)
      else
        readVarintAux buf fuel (pos + 1)
          (result ||| ((buf.get ⟨pos, h⟩ &&& 0x7F) <<< shift)) (shift + 7)
    else .error ()

/-- Entry point of `_read_varint`: returns `(value, new position)`. -/
def readVarint (buf : Bytes) (pos : Nat) : Except Unit (Nat × Nat) :=
  readVarintAux buf (buf.length + 1) pos 0 0

theorem readVarintAux_pos_lt {buf : Bytes} :
    ∀ {fuel pos result shift v p : Nat},
    readVarintAux buf fuel pos result shift = .ok (v, p) → pos < p := by
  intro fuel
  induction fuel with
  | zero => intro pos result shift v p h; cases h
  | succ fuel ih =>
    intro pos result shift v p h
    rw [readVarintAux] at h
    split at h
    · split at h
      · simp only [Except.ok.injEq, Prod.mk.injEq] at h
        omega
      · have := ih h
        omega
    · cases h

theorem readVarintAux_fuel_irrel {buf : Bytes} :
    ∀ {f g pos result shift : Nat}, buf.length - pos < f → buf.length - pos < g →
    readVarintAux buf f pos result shift = readVarintAux buf g pos result shift := by
  intro f
  induction f with
  | zero => intro g pos result shift hf hg; omega
  | succ f ih =>
    intro g pos result shift hf hg
    cases g with
    | zero => omega
    | succ g =>
      rw [readVarintAux, readVarintAux]
      split
      · rename_i hlt
        split
        · rfl
        · exact ih (by omega) (by omega)
      · rfl

theorem readVarint_pos_lt {buf : Bytes} {pos v p : Nat}
    (h : readVarint buf pos = .ok (v, p)) : pos < p :=
  readVarintAux_pos_lt h

/-- One wire value, tagged by how it was read (the constructor determines
the protobuf wire type: `vint` = 0, `lenDel` = 2, `f32` = 5, `f64` = 1).
The 32/64-bit payloads are kept as raw bytes: no claim inspects the float
they denote. -/
inductive WireVal where
  | vint (n : Nat)
  | lenDel (bs : Bytes)
  | f32 (bs : Bytes)
  | f64 (bs : Bytes)
  deriving DecidableEq

/-- One `(field_number, value)` item yielded by `_parse_message`. -/
abbrev Field := Nat × WireVal

/-- One step of the `_parse_message` generator: `ok none` means the
generator is exhausted (either `pos` reached the end of the buffer or an
unknown wire type caused the `break`); `ok (some (field, pos'))` yields
one field.  On wire types 5 and 1 `struct.unpack_from` raises when fewer
than 4 (resp. 8) bytes remain. -/
def parseOne (buf : Bytes) (pos : Nat) : Except Unit (Option (Field × Nat)) :=
  if pos < buf.length then
    match readVarint buf pos with
    | .error e => .error e
    | .ok (tag, pos1) =>
      if tag &&& 0x07 = 0 then
        match readVarint buf pos1 with
        | .error e => .error e
        | .ok (val, pos2) => .ok (some ((tag >>> 3, .vint val), pos2))
      else if tag &&& 0x07 = 2 then
        match readVarint buf pos1 with
        | .error e => .error e
        | .ok (len, pos2) =>
          .ok (some ((tag >>> 3, .lenDel ((buf.drop pos2).take len)), pos2 + len))
      else if tag &&& 0x07 = 5 then
        if pos1 + 4 ≤ buf.length then
          .ok (some ((tag >>> 3, .f32 ((buf.drop pos1).take 4)), pos1 + 4))
        else .error ()
      else if tag &&& 0x07 = 1 then
        if pos1 + 8 ≤ buf.length then
          .ok (some ((tag >>> 3, .f64 ((buf.drop pos1).take 8)), pos1 + 8))
        else .error ()
      else .ok none
  else .ok none

theorem parseOne_pos_lt {buf : Bytes} {pos : Nat} {f : Field} {p : Nat}
    (h : parseOne buf pos = .ok (some (f, p))) : pos < p ∧ pos < buf.length := by
  unfold parseOne at h
  split at h
  · rename_i hlt
    refine ⟨?_, hlt⟩
    split at h
    · cases h
    · rename_i tag pos1 htag
      have h1 : pos < pos1 := readVarint_pos_lt htag
      split at h
      · split at h
        · cases h
        · rename_i val pos2 hval
          have h2 : pos1 < pos2 := readVarint_pos_lt hval
          simp only [Except.ok.injEq, Option.some.injEq, Prod.mk.injEq] at h
          omega
      · split at h
        · split at h
          · cases h
          · rename_i len pos2 hlen
            have h2 : pos1 < pos2 := readVarint_pos_lt hlen
            simp only [Except.ok.injEq, Option.some.injEq, Prod.mk.injEq] at h
            omega
        · split at h
          · split at h
            · simp only [Except.ok.injEq, Option.some.injEq, Prod.mk.injEq] at h
              omega
            · cases h
          · split at h
            · split at h
              · simp only [Except.ok.injEq, Option.some.injEq, Prod.mk.injEq] at h
                omega
              · cases h
            · simp at h
  · simp at h

/-- The fully forced `_parse_message` generator (fueled loop): the list of
all yielded fields, or the exception raised while iterating it.  (Every
caller except `_decode_value` iterates the generator to exhaustion.) -/
def parseFieldsAux (buf : Bytes) : Nat → Nat → Except Unit (List Field)
  | 0, _ => .error ()
  | fuel + 1, pos =>
    match parseOne buf pos with
    | .error e => .error e
    | .ok none => .ok []
    | .ok (some (f, pos')) =>
      match parseFieldsAux buf fuel pos' with
      | .error e => .error e
      | .ok rest => .ok (f :: rest)

def parseFields (buf : Bytes) (pos : Nat) : Except Unit (List Field) :=
  parseFieldsAux buf (buf.length + 1) pos

theorem parseFieldsAux_fuel_irrel {buf : Bytes} :
    ∀ {f g pos : Nat}, buf.length - pos < f → buf.length - pos < g →
    parseFieldsAux buf f pos = parseFieldsAux buf g pos := by
  intro f
  induction f with
  | zero => intro g pos hf hg; omega
  | succ f ih =>
    intro g pos hf hg
    cases g with
    | zero => omega
    | succ g =>
      rw [parseFieldsAux, parseFieldsAux]
      cases h : parseOne buf pos with
      | error e => rfl
      | ok o =>
        cases o with
        | none => rfl
        | some fp =>
          obtain ⟨fld, pos'⟩ := fp
          have hlt := parseOne_pos_lt h
          dsimp only
          have hr := @ih g pos' (by omega) (by omega)
          rw [hr]

/-- `_decode_packed_uint32`: decode a packed repeated varint field
(fueled loop). -/
def decodePackedAux (buf : Bytes) : Nat → Nat → Except Unit (List Nat)
  | 0, _ => .error ()
  | fuel + 1, pos =>
    if pos < buf.length then
      match readVarint buf pos with
      | .error e => .error e
      | .ok (v, pos') =>
        match decodePackedAux buf fuel pos' with
        | .error e => .error e
        | .ok rest => .ok (v :: rest)
    else
      .ok []

def decodePackedUint32 (buf : Bytes) : Except Unit (List Nat) :=
  decodePackedAux buf (buf.length + 1) 0

theorem decodePackedAux_fuel_irrel {buf : Bytes} :
    ∀ {f g pos : Nat}, buf.length - pos < f → buf.length - pos < g →
    decodePackedAux buf f pos = decodePackedAux buf g pos := by
  intro f
  induction f with
  | zero => intro g pos hf hg; omega
  | succ f ih =>
    intro g pos hf hg
    cases g with
    | zero => omega
    | succ g =>
      rw [decodePackedAux, decodePackedAux]
      split
      · cases h : readVarint buf pos with
        | error e => rfl
        | ok vp =>
          obtain ⟨v, pos'⟩ := vp
          have hlt := readVarint_pos_lt h
          dsimp only
          have hr := @ih g pos' (by omega) (by omega)
          rw [hr]
      · rfl

/-- Zig-zag decoding `(v >> 1) ^ -(v & 1)` on a Python int. -/
def zigzag (v : Nat) : Int :=
  if v % 2 = 0 then ((v / 2 : Nat) : Int) else -((v / 2 : Nat) : Int) - 1

/-- A decoded geometry ring / line: a list of integer vertices. -/
abbrev Ring := List (Int × Int)

/-- The inner `for _ in range(cmd_count)` loop of the `MoveTo` branch of
`_decode_geometry`.  It consumes up to `count` zig-zag pairs from the
remaining command list; when fewer than two ints remain it `break`s,
leaving them for the outer loop.  Each pair closes off any in-progress
ring and starts a new one at the updated cursor. -/
def moveToLoop : Nat → List Nat → Int → Int → List Ring → Ring →
    List Nat × Int × Int × List Ring × Ring
  | 0, rest, cx, cy, rings, cur => (rest, cx, cy, rings, cur)
  | n + 1, a :: b :: rest, cx, cy, rings, cur =>
    moveToLoop n rest (cx + zigzag a) (cy + zigzag b)
      (if cur = [] then rings else rings ++ [cur])
      [(cx + zigzag a, cy + zigzag b)]
  | _ + 1, rest, cx, cy, rings, cur => (rest, cx, cy, rings, cur)

/-- The inner loop of the `LineTo` branch: consumes up to `count` zig-zag
pairs, appending each updated cursor to the current ring. -/
def lineToLoop : Nat → List Nat → Int → Int → Ring →
    List Nat × Int × Int × Ring
  | 0, rest, cx, cy, cur => (rest, cx, cy, cur)
  | n + 1, a :: b :: rest, cx, cy, cur =>
    lineToLoop n rest (cx + zigzag a) (cy + zigzag b)
      (cur ++ [(cx + zigzag a, cy + zigzag b)])
  | _ + 1, rest, cx, cy, cur => (rest, cx, cy, cur)

theorem moveToLoop_length_le :
    ∀ n rest cx cy rings cur, (moveToLoop n rest cx cy rings cur).1.length ≤ rest.length := by
  intro n
  induction n with
  | zero => intro rest cx cy rings cur; simp [moveToLoop]
  | succ n ih =>
    intro rest cx cy rings cur
    match rest with
    | [] => simp [moveToLoop]
    | [a] => simp [moveToLoop]
    | a :: b :: rest =>
      have := ih rest (cx + zigzag a) (cy + zigzag b)
        (if cur = [] then rings else rings ++ [cur]) [(cx + zigzag a, cy + zigzag b)]
      simp only [moveToLoop, List.length_cons]
      omega

theorem lineToLoop_length_le :
    ∀ n rest cx cy cur, (lineToLoop n rest cx cy cur).1.length ≤ rest.length := by
  intro n
  induction n with
  | zero => intro rest cx cy cur; simp [lineToLoop]
  | succ n ih =>
    intro rest cx cy cur
    match rest with
    | [] => simp [lineToLoop]
    | [a] => simp [lineToLoop]
    | a :: b :: rest =>
      have := ih rest (cx + zigzag a) (cy + zigzag b)
        (cur ++ [(cx + zigzag a, cy + zigzag b)])
      simp only [lineToLoop, List.length_cons]
      omega

/-- The `while idx < len(commands)` loop of `_decode_geometry` (fueled):
command ints encode `(count << 3) | cmd_id` with `1 = MoveTo`,
`2 = LineTo`, `7 = ClosePath`; unknown command ids consume nothing but
their command int.  After the loop any in-progress ring is flushed. -/
def decodeCmdLoop : Nat → List Nat → Int → Int → List Ring → Ring → List Ring
  | 0, _, _, _, rings, _ => rings
  | _ + 1, [], _, _, rings, cur => if cur = [] then rings else rings ++ [cur]
  | fuel + 1, c :: rest, cx, cy, rings, cur =>
    if c &&& 0x07 = 1 then
      match moveToLoop (c >>> 3) rest cx cy rings cur with
      | (rest', cx', cy', rings', cur') => decodeCmdLoop fuel rest' cx' cy' rings' cur'
    else if c &&& 0x07 = 2 then
      match lineToLoop (c >>> 3) rest cx cy cur with
      | (rest', cx', cy', cur') => decodeCmdLoop fuel rest' cx' cy' rings cur'
    else if c &&& 0x07 = 7 then
      decodeCmdLoop fuel rest cx cy
        (if cur = [] then rings
         else rings ++ [if 2 ≤ cur.length then cur ++ [cur.head!] else cur])
        (if cur = [] then cur else [])
    else
      decodeCmdLoop fuel rest cx cy rings cur

/-- The command loop started with sufficient fuel. -/
def decodeCmds (commands : List Nat) : List Ring :=
  decodeCmdLoop (commands.length + 1) commands 0 0 [] []

theorem decodeCmdLoop_fuel_irrel :
    ∀ {f g : Nat} {cmds : List Nat} {cx cy rings cur}, cmds.length < f → cmds.length < g →
    decodeCmdLoop f cmds cx cy rings cur = decodeCmdLoop g cmds cx cy rings cur := by
  intro f
  induction f with
  | zero => intro g cmds cx cy rings cur hf hg; omega
  | succ f ih =>
    intro g cmds cx cy rings cur hf hg
    cases g with
    | zero => omega
    | succ g =>
      cases cmds with
      | nil => rfl
      | cons c rest =>
        simp only [List.length_cons] at hf hg
        rw [decodeCmdLoop, decodeCmdLoop]
        split
        · have h2 := moveToLoop_length_le (c >>> 3) rest cx cy rings cur
          cases hml : moveToLoop (c >>> 3) rest cx cy rings cur with
          | mk rest' rst =>
            obtain ⟨cx', cy', rings', cur'⟩ := rst
            rw [hml] at h2
            dsimp only at h2
            exact ih (by omega) (by omega)
        · split
          · have h2 := lineToLoop_length_le (c >>> 3) rest cx cy cur
            cases hll : lineToLoop (c >>> 3) rest cx cy cur with
            | mk rest' rst =>
              obtain ⟨cx', cy', cur'⟩ := rst
              rw [hll] at h2
              dsimp only at h2
              exact ih (by omega) (by omega)
          · split
            · exact ih (by omega) (by omega)
            · exact ih (by omega) (by omega)

/-- `_signed_area`: the shoelace sum `Σ (x_i·y_{i+1} − x_{i+1}·y_i) / 2`
over cyclically adjacent vertex pairs (the float division by 2 is exact
arithmetic here). -/
def signedArea (ring : Ring) : ℚ :=
  ((ring.zip (ring.rotate 1)).foldl
    (fun acc pq => acc + (pq.1.1 * pq.2.2 - pq.2.1 * pq.1.2)) 0 : Int) / 2

/-- GeoJSON-style geometry variants produced by `_decode_geometry`. -/
inductive Geometry where
  | point (c : Int × Int)
  | multiPoint (cs : List (Int × Int))
  | lineString (c : Ring)
  | multiLineString (cs : List Ring)
  | polygon (rings : List Ring)
  | multiPolygon (polys : List (List Ring))
  | unknown
  deriving DecidableEq

/-- One step of the polygon-grouping loop of `_decode_geometry`: state is
`(closed polygons, currently open polygon)`. -/
def groupStep (st : List (List Ring) × Option (List Ring)) (ring : Ring) :
    List (List Ring) × Option (List Ring) :=
  if 0 ≤ signedArea ring then
    match st.2 with
    | some p => (st.1 ++ [p], some [ring])
    | none => (st.1, some [ring])
  else
    match st.2 with
    | none => (st.1, some [ring])
    | some p => (st.1, some (p ++ [ring]))

/-- The ring-grouping loop of the polygon branch of `_decode_geometry`. -/
def groupRings (rings : List Ring) : List (List Ring) :=
  match rings.foldl groupStep ([], none) with
  | (polys, some p) => polys ++ [p]
  | (polys, none) => polys

/-- The geometry-type dispatch at the end of `_decode_geometry`. -/
def formatGeometry (geomType : Nat) (rings : List Ring) : Geometry :=
  if geomType = 1 then
    match rings.flatten with
    | [p] => .point p
    | ps => .multiPoint ps
  else if geomType = 2 then
    match rings with
    | [r] => .lineString r
    | rs => .multiLineString rs
  else if geomType = 3 then
    match groupRings rings with
    | [p] => .polygon p
    | ps => .multiPolygon ps
  else .unknown

/-- `_decode_geometry`: decode the packed command stream, run the command
loop, apply the Y flip when `y_coord_down` is false, then format by
geometry type. -/
def decodeGeometry (geomData : Bytes) (geomType : Nat) (extent : Int)
    (yDown : Bool) : Except Unit Geometry :=
  match decodePackedUint32 geomData with
  | .error e => .error e
  | .ok commands =>
    let rings := decodeCmds commands
    let rings := if yDown then rings else rings.map (·.map fun p => (p.1, extent - p.2))
    .ok (formatGeometry geomType rings)

/-- A decoded property value (`_decode_value`).  `float`/`double` payloads
and length-delimited payloads returned raw by fields 2–5 keep their bytes;
`str` is the UTF-8 byte string of a field-1 value. -/
inductive PropVal where
  | str (bs : Bytes)
  | vint (n : Nat)
  | sint (i : Int)
  | f32 (bs : Bytes)
  | f64 (bs : Bytes)
  | bytesVal (bs : Bytes)
  | boolv (b : Bool)
  deriving DecidableEq

/-- Python `bool(val)` on the wire values that can reach field 7 of a
Value message.  `±0.0` are the only falsy float bit patterns
(little-endian: all zero bytes, or all zero with a final sign byte). -/
def wireTruthy : WireVal → Bool
  | .vint n => n ≠ 0
  | .lenDel bs => bs ≠ []
  | .f32 bs => ¬(bs = [0, 0, 0, 0] ∨ bs = [0, 0, 0, 0x80])
  | .f64 bs => ¬(bs = [0, 0, 0, 0, 0, 0, 0, 0] ∨ bs = [0, 0, 0, 0, 0, 0, 0, 0x80])

/-- The wire value as returned unchanged by the `float`, `double`,
`int64` and `uint64` branches of `_decode_value` (`return val`). -/
def wireAsVal : WireVal → PropVal
  | .vint n => .vint n
  | .lenDel bs => .bytesVal bs
  | .f32 bs => .f32 bs
  | .f64 bs => .f64 bs

/-- `_decode_value`, iterating the `_parse_message` generator lazily and
returning at the first field whose number is 1–7.  Field 1 calls
`.decode` on the value (an `AttributeError` unless it is length-delimited)
and field 6 applies zig-zag shifts (a `TypeError` unless it is a varint);
both are uncaught exceptions here.  If no field matches, `None`. -/
def decodeValueAux (buf : Bytes) : Nat → Nat → Except Unit (Option PropVal)
  | 0, _ => .error ()
  | fuel + 1, pos =>
    match parseOne buf pos with
    | .error e => .error e
    | .ok none => .ok none
    | .ok (some ((field, w), pos')) =>
      if field = 1 then
        match w with
        | .lenDel bs => .ok (some (.str bs))
        | _ => .error ()
      else if field = 2 then .ok (some (wireAsVal w))
      else if field = 3 then .ok (some (wireAsVal w))
      else if field = 4 then .ok (some (wireAsVal w))
      else if field = 5 then .ok (some (wireAsVal w))
      else if field = 6 then
        match w with
        | .vint n => .ok (some (.sint (zigzag n)))
        | _ => .error ()
      else if field = 7 then .ok (some (.boolv (wireTruthy w)))
      else decodeValueAux buf fuel pos'

def decodeValue (buf : Bytes) : Except Unit (Option PropVal) :=
  decodeValueAux buf (buf.length + 1) 0

theorem decodeValueAux_fuel_irrel {buf : Bytes} :
    ∀ {f g pos : Nat}, buf.length - pos < f → buf.length - pos < g →
    decodeValueAux buf f pos = decodeValueAux buf g pos := by
  intro f
  induction f with
  | zero => intro g pos hf hg; omega
  | succ f ih =>
    intro g pos hf hg
    cases g with
    | zero => omega
    | succ g =>
      rw [decodeValueAux, decodeValueAux]
      cases h : parseOne buf pos with
      | error e => rfl
      | ok o =>
        cases o with
        | none => rfl
        | some fp =>
          obtain ⟨⟨field, w⟩, pos'⟩ := fp
          have hlt := parseOne_pos_lt h
          dsimp only
          by_cases h1 : field = 1
          · simp [h1]
          · by_cases h2 : field = 2
            · simp [h1, h2]
            · by_cases h3 : field = 3
              · simp [h1, h2, h3]
              · by_cases h4 : field = 4
                · simp [h1, h2, h3, h4]
                · by_cases h5 : field = 5
                  · simp [h1, h2, h3, h4, h5]
                  · by_cases h6 : field = 6
                    · simp [h1, h2, h3, h4, h5, h6]
                    · by_cases h7 : field = 7
                      · simp [h1, h2, h3, h4, h5, h6, h7]
                      · simp only [h1, h2, h3, h4, h5, h6, h7, if_false]
                        exact @ih g pos' (by omega) (by omega)

/-- Insertion into a Python `dict` modelled as an association list:
an existing key keeps its position and has its value replaced, a new key
is appended. -/
def dictInsert {α : Type} (d : List (Bytes × α)) (k : Bytes) (v : α) :
    List (Bytes × α) :=
  if d.any (fun kv => kv.1 = k) then
    d.map (fun kv => if kv.1 = k then (k, v) else kv)
  else d ++ [(k, v)]

/-- A decoded feature: geometry plus a property table. -/
structure Feature where
  geometry : Geometry
  properties : List (Bytes × Option PropVal)
  deriving DecidableEq

/-- A decoded layer: extent plus features. -/
structure Layer where
  extent : Nat
  features : List Feature
  deriving DecidableEq

/-- The mapping returned by `decode`: layer-name bytes to layers, in
Python dict insertion order. -/
abbrev LayerDict := List (Bytes × Layer)

/-- The field-scanning loop of `_decode_feature`: later occurrences of
the type / geometry / tags fields overwrite earlier ones. -/
def featureFieldsLoop (fields : List Field) : Nat × Bytes × Bytes :=
  fields.foldl
    (fun st f =>
      match f with
      | (3, .vint v) => (v, st.2.1, st.2.2)
      | (4, .lenDel bs) => (st.1, st.2.1, bs)
      | (2, .lenDel bs) => (st.1, bs, st.2.2)
      | _ => st)
    (1, [], [])

/-- The tag-pairing loop of `_decode_feature`: alternating key/value
indices; out-of-range indices are skipped. -/
def buildProperties (tagIndices : List Nat) (keys : List Bytes)
    (values : List (Option PropVal)) : List (Bytes × Option PropVal) :=
  (List.range (tagIndices.length / 2)).foldl
    (fun props i =>
      let ki := tagIndices.getD (2 * i) 0
      let vi := tagIndices.getD (2 * i + 1) 0
      if ki < keys.length ∧ vi < values.length then
        dictInsert props (keys.getD ki []) (values.getD vi none)
      else props)
    []

/-- `_decode_feature`. -/
def decodeFeature (data : Bytes) (keys : List Bytes)
    (values : List (Option PropVal)) (extent : Nat) (yDown : Bool) :
    Except Unit Feature :=
  match parseFields data 0 with
  | .error e => .error e
  | .ok fields =>
    match featureFieldsLoop fields with
    | (geomType, tagsRaw, geomData) =>
      match (if tagsRaw = [] then .ok [] else decodePackedUint32 tagsRaw :
          Except Unit (List Nat)) with
      | .error e => .error e
      | .ok tagIndices =>
        match decodeGeometry geomData geomType (extent : Int) yDown with
        | .error e => .error e
        | .ok geometry =>
          .ok { geometry := geometry
                properties := buildProperties tagIndices keys values }

/-- The field-scanning loop of `_decode_layer`.  The `value` branch runs
`_decode_value` during the scan, so its exceptions abort the layer. -/
def layerFieldsLoop (fields : List Field) :
    Except Unit (Bytes × List Bytes × List (Option PropVal) × Nat × List Bytes) :=
  fields.foldlM
    (fun st f =>
      match f with
      | (1, .lenDel bs) => .ok (bs, st.2)
      | (3, .lenDel bs) => .ok (st.1, st.2.1 ++ [bs], st.2.2)
      | (4, .lenDel bs) =>
        match decodeValue bs with
        | .error e => .error e
        | .ok v => .ok (st.1, st.2.1, st.2.2.1 ++ [v], st.2.2.2)
      | (5, .vint v) => .ok (st.1, st.2.1, st.2.2.1, v, st.2.2.2.2)
      | (2, .lenDel bs) => .ok (st.1, st.2.1, st.2.2.1, st.2.2.2.1, st.2.2.2.2 ++ [bs])
      | _ => .ok st)
    ([], [], [], 4096, [])

/-- The list comprehension
`[_decode_feature(fd, ...) for fd in feature_datas]`: features are decoded
in order and the first exception propagates. -/
def decodeFeatureList (keys : List Bytes) (values : List (Option PropVal))
    (extent : Nat) (yDown : Bool) : List Bytes → Except Unit (List Feature)
  | [] => .ok []
  | fd :: rest =>
    match decodeFeature fd keys values extent yDown with
    | .error e => .error e
    | .ok f =>
      match decodeFeatureList keys values extent yDown rest with
      | .error e => .error e
      | .ok fs => .ok (f :: fs)

/-- `_decode_layer`: scan the fields, then decode every collected feature
byte string with the final key/value/extent tables.  A feature failure
aborts the whole layer (there is no per-feature exception handler). -/
def decodeLayer (data : Bytes) (yDown : Bool) :
    Except Unit (Bytes × Layer) :=
  match parseFields data 0 with
  | .error e => .error e
  | .ok fields =>
    match layerFieldsLoop fields with
    | .error e => .error e
    | .ok (name, keys, values, extent, featureDatas) =>
      match decodeFeatureList keys values extent yDown featureDatas with
      | .error e => .error e
      | .ok features => .ok (name, { extent := extent, features := features })

/-- The body of the top-level loop of `decode`: a field-3 layer is decoded
and kept under its name when the name is nonempty (`if name:`); all other
fields are ignored. -/
def decodeStep (yDown : Bool) (acc : LayerDict) (f : Field) : Except Unit LayerDict :=
  match f with
  | (3, .lenDel bs) =>
    match decodeLayer bs yDown with
    | .error e => .error e
    | .ok (name, layer) =>
      .ok (if name = [] then acc else dictInsert acc name layer)
  | _ => .ok acc

/-- The `for field ... in _parse_message(buf)` loop of `decode`. -/
def decodeLoop (yDown : Bool) (acc : LayerDict) : List Field → Except Unit LayerDict
  | [] => .ok acc
  | f :: rest =>
    match decodeStep yDown acc f with
    | .error e => .error e
    | .ok acc' => decodeLoop yDown acc' rest

/-- `decode`: parse the top-level Tile message and run `decodeStep` over
its fields, starting from the empty mapping. -/
def decode (tileBytes : Bytes) (yDown : Bool) : Except Unit LayerDict :=
  match parseFields tileBytes 0 with
  | .error e => .error e
  | .ok fields => decodeLoop yDown [] fields

/-- `decode_tile` (tiles.py): empty input decodes to the empty mapping,
and every exception raised by `decode` is caught at this boundary and
also yields the empty mapping. -/
def decodeTile (tileBytes : Bytes) : LayerDict :=
  if tileBytes = [] then []
  else
    match decode tileBytes true with
    | .ok m => m
    | .error _ => []

/-- Ring grouping as described by the specification: the first ring opens
a polygon; each following ring with negative signed area (a hole) is
appended to the currently open polygon; each following ring with
nonnegative signed area (an exterior, clockwise in Y-down orientation)
closes the open polygon and opens a new one. -/
def specGroupRings : List Ring → List (List Ring)
  | [] => []
  | r :: rest =>
    (r :: rest.takeWhile fun s => decide (signedArea s < 0)) ::
      specGroupRings (rest.dropWhile fun s => decide (signedArea s < 0))
termination_by rings => rings.length
decreasing_by
  have := (List.dropWhile_suffix (l := rest) fun s => decide (signedArea s < 0)).length_le
  simp only [List.length_cons]
  omega

theorem specGroupRings_nil : specGroupRings [] = [] := by
  rw [specGroupRings]

theorem specGroupRings_cons (r : Ring) (rest : List Ring) :
    specGroupRings (r :: rest) =
      (r :: rest.takeWhile fun s => decide (signedArea s < 0)) ::
        specGroupRings (rest.dropWhile fun s => decide (signedArea s < 0)) := by
  rw [specGroupRings]

/-- The flush of the grouping fold, starting from an open polygon `p`. -/
def groupFlushAux (p : List Ring) : List Ring → List (List Ring)
  | [] => [p]
  | r :: rest =>
    if 0 ≤ signedArea r then p :: groupFlushAux [r] rest
    else groupFlushAux (p ++ [r]) rest

theorem foldl_groupStep_some (rings : List Ring) :
    ∀ (polys : List (List Ring)) (p : List Ring),
    (match rings.foldl groupStep (polys, some p) with
     | (ps, some q) => ps ++ [q]
     | (ps, none) => ps) = polys ++ groupFlushAux p rings := by
  induction rings with
  | nil => intro polys p; simp [groupFlushAux]
  | cons r rest ih =>
    intro polys p
    by_cases hr : 0 ≤ signedArea r
    · have hstep : groupStep (polys, some p) r = (polys ++ [p], some [r]) := by
        simp [groupStep, hr]
      rw [List.foldl_cons, hstep, ih]
      simp [groupFlushAux, hr]
    · have hstep : groupStep (polys, some p) r = (polys, some (p ++ [r])) := by
        simp [groupStep, hr]
      rw [List.foldl_cons, hstep, ih]
      simp [groupFlushAux, hr]

theorem groupFlushAux_eq_spec (rings : List Ring) :
    ∀ p : List Ring,
    groupFlushAux p rings =
      (p ++ rings.takeWhile fun s => decide (signedArea s < 0)) ::
        specGroupRings (rings.dropWhile fun s => decide (signedArea s < 0)) := by
  induction rings with
  | nil => intro p; simp [groupFlushAux, specGroupRings]
  | cons r rest ih =>
    intro p
    by_cases hr : 0 ≤ signedArea r
    · have hd : decide (signedArea r < 0) = false := decide_eq_false (not_lt.mpr hr)
      rw [groupFlushAux, if_pos hr, ih [r]]
      simp only [List.takeWhile_cons, List.dropWhile_cons, hd, Bool.false_eq_true,
        if_false, List.append_nil, specGroupRings_cons]
      simp
    · have hd : decide (signedArea r < 0) = true := decide_eq_true (not_le.mp hr)
      rw [groupFlushAux, if_neg hr, ih (p ++ [r])]
      simp only [List.takeWhile_cons, List.dropWhile_cons, hd, if_true]
      simp

/-- Decidable equality on decode results, for concrete evaluations. -/
instance {α β : Type} [DecidableEq α] [DecidableEq β] : DecidableEq (Except α β) :=
  fun a b =>
    match a, b with
    | .error x, .error y =>
      if h : x = y then .isTrue (by rw [h]) else .isFalse (by intro hc; cases hc; exact h rfl)
    | .ok x, .ok y =>
      if h : x = y then .isTrue (by rw [h]) else .isFalse (by intro hc; cases hc; exact h rfl)
    | .error _, .ok _ => .isFalse (by intro hc; cases hc)
    | .ok _, .error _ => .isFalse (by intro hc; cases hc)

set_option synthInstance.maxSize 512 in
/-- Decidable equality on the result tuple of `layerFieldsLoop` (the
default instance-search size limit is too small for this product). -/
instance :
    DecidableEq (Bytes × List Bytes × List (Option PropVal) × Nat × List Bytes) :=
  inferInstance

/-- A two-layer tile: layer `"a"` (`0x61`, field `26, 5`) with one
well-formed (empty) feature, and layer `"b"` (`0x62`, field `26, 10`,
bytes `[10, 1, 98, 18, 0, 18, 3, 34, 1, 128]`) with one well-formed
empty feature (`18, 0`) followed by one malformed feature
(`18, 3` → `[34, 1, 128]`) whose geometry field `[0x80]` is a truncated
varint.  The layer length byte `10` puts the malformed bytes inside the
layer slice, so the Tile message itself parses and the failure happens
inside `_decode_feature`. -/
def badFeatureTile : Bytes :=
  [26, 5, 10, 1, 97, 18, 0, 26, 10, 10, 1, 98, 18, 0, 18, 3, 34, 1, 128]

/-- The same tile with the malformed feature removed: both layers are
well-formed. -/
def goodFeatureTile : Bytes :=
  [26, 5, 10, 1, 97, 18, 0, 26, 5, 10, 1, 98, 18, 0]

/-- The decoded form of `goodFeatureTile`. -/
def goodFeatureTileDecoded : LayerDict :=
  [([97], { extent := 4096, features := [{ geometry := .multiPoint [], properties := [] }] }),
   ([98], { extent := 4096, features := [{ geometry := .multiPoint [], properties := [] }] })]

/-- A ring that is a hole in Y-down orientation: its shoelace signed area
is negative. -/
def holeRing : Ring := [(0, 0), (0, 2), (2, 2), (2, 0), (0, 0)]

/-- The imperative grouping loop of `_decode_geometry` computes exactly
the specification's grouping. -/
theorem groupRings_eq_spec (rings : List Ring) :
    groupRings rings = specGroupRings rings := by
  cases rings with
  | nil => rw [specGroupRings_nil]; rfl
  | cons r rest =>
    have hstep : groupStep ([], none) r = ([], some [r]) := by
      unfold groupStep
      split <;> rfl
    unfold groupRings
    rw [List.foldl_cons, hstep, foldl_groupStep_some rest [] [r],
      groupFlushAux_eq_spec rest [r], specGroupRings_cons]
    simp

theorem dictInsert_keys_ne_nil {α : Type} {d : List (Bytes × α)} {k : Bytes} {v : α}
    (hd : ∀ kv ∈ d, kv.1 ≠ ([] : Bytes)) (hk : k ≠ []) :
    ∀ kv ∈ dictInsert d k v, kv.1 ≠ ([] : Bytes) := by
  unfold dictInsert
  split
  · intro kv hkv
    obtain ⟨kv0, hkv0, heq⟩ := List.mem_map.mp hkv
    by_cases h : kv0.1 = k
    · rw [if_pos h] at heq
      rw [← heq]
      exact hk
    · rw [if_neg h] at heq
      rw [← heq]
      exact hd kv0 hkv0
  · intro kv hkv
    rcases List.mem_append.mp hkv with h | h
    · exact hd kv h
    · rw [List.mem_singleton.mp h]
      exact hk

theorem decodeStep_keys_ne_nil {yd : Bool} {acc : LayerDict} {f : Field} {m : LayerDict}
    (hacc : ∀ kv ∈ acc, kv.1 ≠ ([] : Bytes)) (h : decodeStep yd acc f = .ok m) :
    ∀ kv ∈ m, kv.1 ≠ ([] : Bytes) := by
  unfold decodeStep at h
  split at h
  · split at h
    · cases h
    · rename_i name layer heq
      simp only [Except.ok.injEq] at h
      subst h
      split
      · exact hacc
      · rename_i hname
        exact dictInsert_keys_ne_nil hacc hname
  · simp only [Except.ok.injEq] at h
    subst h
    exact hacc

theorem decodeLoop_keys_ne_nil {yd : Bool} :
    ∀ (fields : List Field) (acc m : LayerDict),
    (∀ kv ∈ acc, kv.1 ≠ ([] : Bytes)) → decodeLoop yd acc fields = .ok m →
    ∀ kv ∈ m, kv.1 ≠ ([] : Bytes) := by
  intro fields
  induction fields with
  | nil =>
    intro acc m hacc h
    unfold decodeLoop at h
    simp only [Except.ok.injEq] at h
    subst h
    exact hacc
  | cons f rest ih =>
    intro acc m hacc h
    unfold decodeLoop at h
    split at h
    · cases h
    · rename_i acc' heq
      exact ih acc' m (decodeStep_keys_ne_nil hacc heq) h

/-- C9: `decode` drops any layer whose name is absent or decodes to the
empty string, so a successfully decoded layer mapping never contains the
empty (byte) string as a key. -/
theorem c9_theorem : ∀ (bs : Bytes) (yd : Bool) (m : LayerDict),
    decode bs yd = .ok m → ∀ kv ∈ m, kv.1 ≠ ([] : Bytes) := by
  intro bs yd m h kv hkv
  unfold decode at h
  split at h
  · cases h
  · exact decodeLoop_keys_ne_nil _ [] m (by simp) h kv hkv

/-- Witness for C9 at a concrete two-layer tile. -/
theorem c9_witness :
    decode goodFeatureTile true = .ok goodFeatureTileDecoded ∧
      ∀ kv ∈ goodFeatureTileDecoded, kv.1 ≠ ([] : Bytes) :=
  ⟨by decide, fun kv hkv =>
    c9_theorem goodFeatureTile true goodFeatureTileDecoded (by decide) kv hkv⟩

/-- The list comprehension of `_decode_layer` propagates the error of
any one feature in the list. -/
theorem decodeFeatureList_error_of_mem (keys : List Bytes)
    (values : List (Option PropVal)) (extent : Nat) (yd : Bool) :
    ∀ (fds : List Bytes) (fd : Bytes), fd ∈ fds →
      decodeFeature fd keys values extent yd = .error () →
      decodeFeatureList keys values extent yd fds = .error () := by
  intro fds fd hmem herr
  induction fds with
  | nil => cases hmem
  | cons x rest ih =>
    unfold decodeFeatureList
    rcases List.mem_cons.mp hmem with hx | hx
    · subst hx
      rw [herr]
    · cases hx' : decodeFeature x keys values extent yd with
      | error e => rfl
      | ok f =>
        rw [ih hx]

/-- `_decode_layer` propagates the error of any feature in its collected
feature list. -/
theorem decodeLayer_error_of_feature {data : Bytes} {yd : Bool}
    {lfields : List Field} {name : Bytes} {keys : List Bytes}
    {values : List (Option PropVal)} {extent : Nat}
    {featureDatas : List Bytes} {fd : Bytes}
    (h3 : parseFields data 0 = .ok lfields)
    (h4 : layerFieldsLoop lfields = .ok (name, keys, values, extent, featureDatas))
    (h5 : fd ∈ featureDatas)
    (h6 : decodeFeature fd keys values extent yd = .error ()) :
    decodeLayer data yd = .error () := by
  unfold decodeLayer
  rw [h3]
  dsimp only
  rw [h4]
  dsimp only
  rw [decodeFeatureList_error_of_mem keys values extent yd featureDatas fd h5 h6]

/-- The top-level loop of `decode` propagates the error of any layer
field in the Tile message. -/
theorem decodeLoop_error_of_layer {yd : Bool} {bs : Bytes}
    (hlayer : decodeLayer bs yd = .error ()) :
    ∀ (fields : List Field), (3, WireVal.lenDel bs) ∈ fields →
      ∀ acc, decodeLoop yd acc fields = .error () := by
  intro fields
  induction fields with
  | nil => intro h; cases h
  | cons f rest ih =>
    intro hmem acc
    unfold decodeLoop
    rcases List.mem_cons.mp hmem with rfl | hmem'
    · have hstep : decodeStep yd acc (3, .lenDel bs) = .error () := by
        unfold decodeStep
        dsimp only
        rw [hlayer]
      rw [hstep]
    · cases hstep : decodeStep yd acc f with
      | error e =>
        cases e
        rfl
      | ok acc' =>
        dsimp only
        exact ih hmem' acc'

/-- C1 (counterexample to the original claim): in `badFeatureTile` the
Tile message itself parses into two layer fields, layer `"a"` and the
empty sibling feature of layer `"b"` are entirely well-formed, and the
only decoder failure is the truncated varint inside the one feature
`[34, 1, 128]` of layer `"b"` — yet `decode_tile` returns the empty
layer map, so the remaining well-formed feature and the other layer do
not appear in the result, contradicting both halves of the claim
(removing the malformed feature makes the whole tile decode). -/
theorem c1_counterexample :
    parseFields badFeatureTile 0 =
      .ok [(3, .lenDel [10, 1, 97, 18, 0]),
           (3, .lenDel [10, 1, 98, 18, 0, 18, 3, 34, 1, 128])] ∧
    decodeLayer [10, 1, 97, 18, 0] true =
      .ok ([97],
        { extent := 4096, features := [{ geometry := .multiPoint [], properties := [] }] }) ∧
    decodeFeature [] [] [] 4096 true =
      .ok { geometry := .multiPoint [], properties := [] } ∧
    decodeFeature [34, 1, 128] [] [] 4096 true = .error () ∧
    decodeTile badFeatureTile = [] ∧
    decode goodFeatureTile true = .ok goodFeatureTileDecoded :=
  ⟨by decide, by decide, by decide, by decide, by decide, by decide⟩

/-- C1 (amended): a decoder failure inside one feature of a layer is not
skipped: whenever the Tile message parses to fields containing a layer
whose scanned feature list contains a feature that fails to decode, the
error aborts the layer's whole feature list and propagates to the Tile
boundary, where `decode_tile` returns the empty layer map, dropping all
other features and layers. -/
theorem c1_theorem (tileBytes : Bytes) (tfields : List Field)
    (layerData : Bytes) (lfields : List Field) (name : Bytes)
    (keys : List Bytes) (values : List (Option PropVal)) (extent : Nat)
    (featureDatas : List Bytes) (fd : Bytes)
    (h1 : parseFields tileBytes 0 = .ok tfields)
    (h2 : (3, WireVal.lenDel layerData) ∈ tfields)
    (h3 : parseFields layerData 0 = .ok lfields)
    (h4 : layerFieldsLoop lfields = .ok (name, keys, values, extent, featureDatas))
    (h5 : fd ∈ featureDatas)
    (h6 : decodeFeature fd keys values extent true = .error ()) :
    decodeTile tileBytes = [] := by
  have hdec : decode tileBytes true = .error () := by
    unfold decode
    rw [h1]
    exact decodeLoop_error_of_layer
      (decodeLayer_error_of_feature h3 h4 h5 h6) tfields h2 []
  unfold decodeTile
  split
  · rfl
  · rw [hdec]

/-- Witness for C1's amended claim at the concrete malformed tile:
every hypothesis is discharged on `badFeatureTile` (the bad feature is
`[34, 1, 128]` inside layer `"b"`), and the conclusion is the empty
decoded map. -/
theorem c1_witness :
    (parseFields badFeatureTile 0 =
        .ok [(3, .lenDel [10, 1, 97, 18, 0]),
             (3, .lenDel [10, 1, 98, 18, 0, 18, 3, 34, 1, 128])] ∧
      parseFields [10, 1, 98, 18, 0, 18, 3, 34, 1, 128] 0 =
        .ok [(1, .lenDel [98]), (2, .lenDel []), (2, .lenDel [34, 1, 128])] ∧
      layerFieldsLoop [(1, .lenDel [98]), (2, .lenDel []),
          (2, .lenDel [34, 1, 128])] =
        .ok ([98], [], [], 4096, [[], [34, 1, 128]]) ∧
      [34, 1, 128] ∈ [([] : Bytes), [34, 1, 128]] ∧
      decodeFeature [34, 1, 128] [] [] 4096 true = .error ()) ∧
    decodeTile badFeatureTile = [] :=
  ⟨⟨by decide, by decide, by decide, by decide, by decide⟩,
   c1_theorem badFeatureTile
     [(3, .lenDel [10, 1, 97, 18, 0]),
      (3, .lenDel [10, 1, 98, 18, 0, 18, 3, 34, 1, 128])]
     [10, 1, 98, 18, 0, 18, 3, 34, 1, 128]
     [(1, .lenDel [98]), (2, .lenDel []), (2, .lenDel [34, 1, 128])]
     [98] [] [] 4096 [[], [34, 1, 128]] [34, 1, 128]
     (by decide) (by decide) (by decide) (by decide) (by decide) (by decide)⟩

/-- C6: the polygon branch of the decoder partitions rings into polygons
by the sign of the shoelace signed area — a ring with `area ≥ 0` closes
any open polygon and opens a new one, a ring with `area < 0` is appended
to the currently open polygon (`specGroupRings` states this as a chunked
recursion) — and the result is a `Polygon` when there is exactly one
group and a `MultiPolygon` otherwise. -/
theorem c6_theorem : ∀ rings : List Ring,
    formatGeometry 3 rings =
      match specGroupRings rings with
      | [p] => Geometry.polygon p
      | ps => Geometry.multiPolygon ps := by
  intro rings
  unfold formatGeometry
  rw [groupRings_eq_spec]
  norm_num

/-- C10: a hole ring (signed area < 0) that arrives before any exterior
ring opens a new polygon whose first ring is that hole, and that polygon
is part of the emitted `Polygon`/`MultiPolygon`. -/
theorem c10_theorem : ∀ (r : Ring) (rest : List Ring), signedArea r < 0 →
    ∃ hs tl, groupRings (r :: rest) = (r :: hs) :: tl ∧
      formatGeometry 3 (r :: rest) =
        (if tl = [] then Geometry.polygon (r :: hs)
         else Geometry.multiPolygon ((r :: hs) :: tl)) := by
  intro r rest _hneg
  refine ⟨rest.takeWhile fun s => decide (signedArea s < 0),
    specGroupRings (rest.dropWhile fun s => decide (signedArea s < 0)), ?_, ?_⟩
  · rw [groupRings_eq_spec, specGroupRings_cons]
  · unfold formatGeometry
    rw [groupRings_eq_spec, specGroupRings_cons]
    cases htl : specGroupRings (rest.dropWhile fun s => decide (signedArea s < 0)) with
    | nil => norm_num
    | cons t ts => simp

/-- Witness for C10 at a concrete hole-first ring list. -/
theorem c10_witness :
    signedArea holeRing < 0 ∧
    ∃ hs tl, groupRings [holeRing] = (holeRing :: hs) :: tl ∧
      formatGeometry 3 [holeRing] =
        (if tl = [] then Geometry.polygon (holeRing :: hs)
         else Geometry.multiPolygon ((holeRing :: hs) :: tl)) :=
  ⟨by norm_num [signedArea, holeRing, List.rotate],
   c10_theorem holeRing [] (by norm_num [signedArea, holeRing, List.rotate])⟩

end Mvt

namespace Rend

/-- Python `int()` applied to an exact rational: truncation toward zero. -/
def ratPyInt (q : ℚ) : Int := if 0 ≤ q then ⌊q⌋ else ⌈q⌉

/-- `min` of a nonempty Python sequence of ints (callers guarantee
nonemptiness; the default is never used). -/
def intListMin : List Int → Int
  | [] => 0
  | x :: xs => xs.foldl min x

/-- `max` of a nonempty Python sequence of ints. -/
def intListMax : List Int → Int
  | [] => 0
  | x :: xs => xs.foldl max x

/-- The list `[a, a+1, …, b]` (Python `range(a, b + 1)`). -/
def intRange (a b : Int) : List Int :=
  (List.range (b + 1 - a).toNat).map (fun (k : Nat) => a + (k : Int))

/-- The character framebuffer of `render.py`.  The parallel `colors` grid
is omitted: no claim observes it. -/
structure Framebuffer where
  width : Int
  height : Int
  buffer : List (List Char)
  deriving DecidableEq

/-- `Framebuffer.__init__`. -/
def mkFramebuffer (width height : Int) : Framebuffer :=
  { width := width, height := height
    buffer := List.replicate height.toNat (List.replicate width.toNat ' ') }

/-- `set_char`: bounds-checked write, silent no-op outside the grid. -/
def setChar (fb : Framebuffer) (x y : Int) (c : Char) : Framebuffer :=
  if 0 ≤ x ∧ x < fb.width ∧ 0 ≤ y ∧ y < fb.height then
    { fb with buffer := fb.buffer.set y.toNat ((fb.buffer.getD y.toNat []).set x.toNat c) }
  else fb

/-- The body of Bresenham's loop in `draw_line`, with explicit fuel.  The
fuel passed by `drawLine` is `dx + dy + 1`, which covers the loop's
`max dx dy + 1` iterations. -/
def drawLineLoop (c : Char) (x1 y1 sx sy dx dy : Int) :
    Nat → Framebuffer → Int → Int → Int → Framebuffer
  | 0, fb, _, _, _ => fb
  | fuel + 1, fb, x0, y0, err =>
    let fb' := setChar fb x0 y0 c
    if x0 = x1 ∧ y0 = y1 then fb'
    else
      let e2 := 2 * err
      let err1 := if e2 > -dy then err - dy else err
      let x0' := if e2 > -dy then x0 + sx else x0
      let err2 := if e2 < dx then err1 + dx else err1
      let y0' := if e2 < dx then y0 + sy else y0
      drawLineLoop c x1 y1 sx sy dx dy fuel fb' x0' y0' err2

/-- `draw_line`: integer Bresenham across all eight octants. -/
def drawLine (fb : Framebuffer) (x0 y0 x1 y1 : Int) (c : Char) : Framebuffer :=
  let dx : Int := (x1 - x0).natAbs
  let dy : Int := (y1 - y0).natAbs
  let sx : Int := if x0 < x1 then 1 else -1
  let sy : Int := if y0 < y1 then 1 else -1
  drawLineLoop c x1 y1 sx sy dx dy ((x1 - x0).natAbs + (y1 - y0).natAbs + 1) fb x0 y0 (dx - dy)

/-- `draw_poly_outline`: `draw_line` between consecutive points (the
`int()` conversions are the identity on our integer points). -/
def drawPolyOutline (fb : Framebuffer) (points : List (Int × Int)) (c : Char) : Framebuffer :=
  (points.zip points.tail).foldl
    (fun fb pq => drawLine fb pq.1.1 pq.1.2 pq.2.1 pq.2.2 c) fb

/-- The cyclically adjacent edge list of `draw_polygon_filled`'s inner
loop: pairs `(ring[i], ring[j])` with `j = i - 1 mod n`. -/
def cyclicEdges (ring : List (Int × Int)) : List ((Int × Int) × (Int × Int)) :=
  ring.zip (ring.rotate (ring.length - 1))

/-- The crossing test of the scanline loop:
`(yi < y and yj >= y) or (yj < y and yi >= y)` (edges with `yi = yj`
never pass). -/
def edgeCrosses (y : Int) (e : (Int × Int) × (Int × Int)) : Bool :=
  (e.1.2 < y ∧ y ≤ e.2.2) ∨ (e.2.2 < y ∧ y ≤ e.1.2)

/-- The crossing abscissa `x = xi + (y - yi) / (yj - yi) * (xj - xi)`
computed in exact arithmetic and truncated by `int()`. -/
def crossingX (y : Int) (e : (Int × Int) × (Int × Int)) : Int :=
  ratPyInt ((e.1.1 : ℚ) + ((y : ℚ) - (e.1.2 : ℚ)) / ((e.2.2 : ℚ) - (e.1.2 : ℚ))
    * ((e.2.1 : ℚ) - (e.1.1 : ℚ)))

/-- The `nodes` list collected for scanline `y` (in ring/edge order,
before sorting). -/
def crossingNodes (ringsV : List (List (Int × Int))) (y : Int) : List Int :=
  ringsV.flatMap fun ring =>
    (cyclicEdges ring).filterMap fun e =>
      if edgeCrosses y e then some (crossingX y e) else none

/-- The row-level effect of one `for x in range(x_start, x_end + 1)` fill
(positions set left to right). -/
def fillRunRow (row : List Char) (xs xe : Int) (c : Char) : List Char :=
  (intRange xs xe).foldl (fun r x => r.set x.toNat c) row

/-- The pair loop `for i in range(0, len(nodes), 2)` acting on one row:
adjacent disjoint pairs `(nodes[2i], nodes[2i+1])`; a trailing unpaired
node is dropped (`break`). -/
def fillPairsRow (w : Int) (c : Char) : List Int → List Char → List Char
  | a :: b :: rest, row => fillPairsRow w c rest (fillRunRow row (max 0 a) (min (w - 1) b) c)
  | _, row => row

/-- One scanline of `draw_polygon_filled`: collect crossings, sort them
ascending, then fill the clamped runs between adjacent pairs by raw
buffer writes. -/
def fillScan (valid : List (List (Int × Int))) (w : Int) (c : Char)
    (fb : Framebuffer) (y : Int) : Framebuffer :=
  let nodes := (crossingNodes valid y).mergeSort (fun a b => a ≤ b)
  { fb with buffer :=
      fb.buffer.set y.toNat (fillPairsRow w c nodes (fb.buffer.getD y.toNat [])) }

/-- `draw_polygon_filled`: even-odd scanline fill over the rings with at
least 3 vertices.  `min_y`/`max_y` come from the vertices (`int(p[1])` is
the identity on integer points), clamped to `[0, h-1]`. -/
def drawPolygonFilled (fb : Framebuffer) (rings : List (List (Int × Int)))
    (c : Char) : Framebuffer :=
  if rings = [] then fb
  else
    let valid := rings.filter fun r => decide (3 ≤ r.length)
    if valid = [] then fb
    else
      let ys := (valid.flatMap id).map Prod.snd
      let minY := max 0 (intListMin ys)
      let maxY := min (fb.height - 1) (intListMax ys)
      (intRange minY maxY).foldl (fillScan valid fb.width c) fb

/-- The adjacent disjoint pairs `(nodes[2i], nodes[2i+1])` of a sorted
crossing list; a trailing unpaired node is dropped. -/
def pairsOf : List Int → List (Int × Int)
  | a :: b :: rest => (a, b) :: pairsOf rest
  | _ => []

/-- Cell `x` lies in the clamped run `[max 0 a, min (w-1) b]` of some
adjacent pair `(a, b)`. -/
def coveredByPairs (w : Int) (nodes : List Int) (x : Int) : Bool :=
  (pairsOf nodes).any fun ab => decide (max 0 ab.1 ≤ x ∧ x ≤ min (w - 1) ab.2)

/-- The specification's row fill, cell by cell: starting at index `i`,
each cell covered by an adjacent pair becomes `c`, anything else is kept. -/
def specRowFillAux (w : Int) (nodes : List Int) (c : Char) : Nat → List Char → List Char
  | _, [] => []
  | x, ch :: rest =>
    (if coveredByPairs w nodes (x : Int) then c else ch) ::
      specRowFillAux w nodes c (x + 1) rest

def specRowFill (w : Int) (nodes : List Int) (c : Char) (row : List Char) : List Char :=
  specRowFillAux w nodes c 0 row

/-- Transform each row of a buffer by a row function of its index,
starting at index `i`. -/
def specBufferAux (rowT : Nat → List Char → List Char) : Nat → List (List Char) → List (List Char)
  | _, [] => []
  | y, row :: rest => rowT y row :: specBufferAux rowT (y + 1) rest

/-- The scanline polygon fill as the specification describes it: for each
scanline `y` in the vertex Y-range clamped to `[0, h-1]`, truncate the
crossing abscissas of the edges whose Y-range crosses `y` (with the
half-open rule, `yi = yj` excluded), sort them ascending, and fill the
cells `[max 0 a, min (w-1) b]` of each adjacent pair `(a, b)`; all other
cells and rows are unchanged. -/
def specPolygonFill (fb : Framebuffer) (rings : List (List (Int × Int)))
    (c : Char) : Framebuffer :=
  let ys := (rings.flatMap id).map Prod.snd
  let minY := max 0 (intListMin ys)
  let maxY := min (fb.height - 1) (intListMax ys)
  { fb with buffer :=
      (specBufferAux
        (fun y row =>
          if minY ≤ (y : Int) ∧ (y : Int) ≤ maxY then
            specRowFill fb.width ((crossingNodes rings y).mergeSort fun a b => a ≤ b) c row
          else row)
        0 fb.buffer) }

/-- The scanline fold at the buffer level. -/
def applyRows (rowT : Int → List Char → List Char) : List Int → List (List Char) → List (List Char)
  | [], buf => buf
  | y :: rest, buf => applyRows rowT rest (buf.set y.toNat (rowT y (buf.getD y.toNat [])))

theorem mem_intRange {a b x : Int} : x ∈ intRange a b ↔ a ≤ x ∧ x ≤ b := by
  unfold intRange
  simp only [List.mem_map, List.mem_range]
  constructor
  · rintro ⟨k, hk, rfl⟩
    omega
  · intro ⟨h1, h2⟩
    exact ⟨(x - a).toNat, by omega, by omega⟩

theorem nodup_intRange {a b : Int} : (intRange a b).Nodup := by
  unfold intRange
  exact (List.nodup_range _).map fun x y h => by omega

theorem foldl_set_get? (c : Char) :
    ∀ (ls : List Int) (row : List Char) (k : Nat), (∀ x ∈ ls, 0 ≤ x) →
    (ls.foldl (fun r x => r.set x.toNat c) row).get? k =
      (row.get? k).map (fun ch => if (k : Int) ∈ ls then c else ch) := by
  intro ls
  induction ls with
  | nil =>
    intro row k hpos
    simp
  | cons x rest ih =>
    intro row k hpos
    rw [List.foldl_cons, ih _ k (fun z hz => hpos z (List.mem_cons_of_mem x hz))]
    by_cases hk : (k : Int) = x
    · have hkx : k = x.toNat := by omega
      have hx0 : 0 ≤ x := hpos x (List.mem_cons_self x rest)
      subst hkx
      by_cases hlen : x.toNat < row.length
      · rw [List.get?_eq_getElem?, List.get?_eq_getElem?,
          List.getElem?_set_self', List.getElem?_eq_getElem hlen]
        simp [hk]
      · have h1 : row.get? x.toNat = none := by
          rw [List.get?_eq_getElem?, List.getElem?_eq_none]
          omega
        have h2 : (row.set x.toNat c).get? x.toNat = none := by
          rw [List.get?_eq_getElem?, List.getElem?_eq_none]
          simp only [List.length_set]
          omega
        rw [h1, h2]
        simp
    · have hkx : k ≠ x.toNat := by
        intro hc
        apply hk
        have := hpos x (List.mem_cons_self x rest)
        omega
      rw [List.get?_eq_getElem?, List.getElem?_set_ne (by omega), ← List.get?_eq_getElem?]
      have hmem : ((k : Int) ∈ x :: rest) ↔ ((k : Int) ∈ rest) := by
        simp [List.mem_cons, hk]
      simp only [hmem]

theorem fillRunRow_get? {c : Char} {xs xe : Int} (hxs : 0 ≤ xs) (row : List Char) (k : Nat) :
    (fillRunRow row xs xe c).get? k =
      (row.get? k).map (fun ch => if xs ≤ (k : Int) ∧ (k : Int) ≤ xe then c else ch) := by
  unfold fillRunRow
  rw [foldl_set_get? c (intRange xs xe) row k
    (fun z hz => le_trans hxs (mem_intRange.mp hz).1)]
  simp only [mem_intRange]

theorem fillPairsRow_get? (w : Int) (c : Char) :
    ∀ (nodes : List Int) (row : List Char) (k : Nat),
    (fillPairsRow w c nodes row).get? k =
      (row.get? k).map (fun ch => if coveredByPairs w nodes (k : Int) then c else ch)
  | [], row, k => by
    simp [fillPairsRow, coveredByPairs, pairsOf]
  | [a], row, k => by
    simp [fillPairsRow, coveredByPairs, pairsOf]
  | a :: b :: rest, row, k => by
    rw [fillPairsRow, fillPairsRow_get? w c rest _ k,
      fillRunRow_get? (le_max_left 0 a) row k]
    rw [Option.map_map]
    have hcov : coveredByPairs w (a :: b :: rest) (k : Int) =
        (decide (max 0 a ≤ (k : Int) ∧ (k : Int) ≤ min (w - 1) b)
          || coveredByPairs w rest (k : Int)) := by
      simp [coveredByPairs, pairsOf]
    rw [hcov]
    cases row.get? k with
    | none => rfl
    | some ch =>
      by_cases h1 : coveredByPairs w rest (k : Int)
      · simp [h1]
      · by_cases h2 : max 0 a ≤ (k : Int) ∧ (k : Int) ≤ min (w - 1) b
        · simp [h1, h2]
        · simp [h1, h2]

theorem specRowFillAux_get? (w : Int) (nodes : List Int) (c : Char) :
    ∀ (row : List Char) (i k : Nat),
    (specRowFillAux w nodes c i row).get? k =
      (row.get? k).map (fun ch => if coveredByPairs w nodes ((i + k : Nat) : Int) then c else ch) := by
  intro row
  induction row with
  | nil => intro i k; simp [specRowFillAux]
  | cons ch rest ih =>
    intro i k
    cases k with
    | zero => simp [specRowFillAux]
    | succ k =>
      rw [specRowFillAux]
      simp only [List.get?_cons_succ, ih (i + 1) k]
      have : i + 1 + k = i + (k + 1) := by omega
      rw [this]

theorem fillPairsRow_eq_specRowFill (w : Int) (c : Char) (nodes : List Int) (row : List Char) :
    fillPairsRow w c nodes row = specRowFill w nodes c row := by
  apply List.ext_get?
  intro k
  rw [fillPairsRow_get? w c nodes row k, specRowFill, specRowFillAux_get? w nodes c row 0 k]
  simp

theorem applyRows_get? (rowT : Int → List Char → List Char) :
    ∀ (ys : List Int) (buf : List (List Char)) (j : Nat), ys.Nodup → (∀ y ∈ ys, 0 ≤ y) →
    (applyRows rowT ys buf).get? j =
      (buf.get? j).map (fun row => if (j : Int) ∈ ys then rowT j row else row) := by
  intro ys
  induction ys with
  | nil =>
    intro buf j _ _
    simp [applyRows]
  | cons y rest ih =>
    intro buf j hnd hpos
    rw [applyRows, ih _ j (List.nodup_cons.mp hnd).2
      (fun z hz => hpos z (List.mem_cons_of_mem y hz))]
    have hy0 : 0 ≤ y := hpos y (List.mem_cons_self y rest)
    by_cases hj : (j : Int) = y
    · have hjy : j = y.toNat := by omega
      have hnotr : (j : Int) ∉ rest := by
        rw [hj]
        exact (List.nodup_cons.mp hnd).1
      subst hjy
      by_cases hlen : y.toNat < buf.length
      · rw [List.get?_eq_getElem?, List.get?_eq_getElem?,
          List.getElem?_set_self', List.getElem?_eq_getElem hlen]
        have hgd : buf.getD y.toNat [] = buf[y.toNat] := by
          simp [List.getD, List.get?_eq_getElem?, List.getElem?_eq_getElem hlen]
        rw [hj] at hnotr
        simp [hgd, hnotr, hj, List.getElem?_eq_getElem hlen]
      · have h1 : buf.get? y.toNat = none := by
          rw [List.get?_eq_getElem?, List.getElem?_eq_none]
          omega
        have h2 : (buf.set y.toNat (rowT y (buf.getD y.toNat []))).get? y.toNat = none := by
          rw [List.get?_eq_getElem?, List.getElem?_eq_none]
          simp only [List.length_set]
          omega
        rw [h1, h2]
        simp
    · have hjy : j ≠ y.toNat := by
        intro hc
        apply hj
        omega
      rw [List.get?_eq_getElem?, List.getElem?_set_ne (by omega), ← List.get?_eq_getElem?]
      have hmem : ((j : Int) ∈ y :: rest) ↔ ((j : Int) ∈ rest) := by
        simp [List.mem_cons, hj]
      simp only [hmem]

theorem specBufferAux_get? (rowT : Nat → List Char → List Char) :
    ∀ (buf : List (List Char)) (i j : Nat),
    (specBufferAux rowT i buf).get? j = (buf.get? j).map (fun row => rowT (i + j) row) := by
  intro buf
  induction buf with
  | nil => intro i j; simp [specBufferAux]
  | cons row rest ih =>
    intro i j
    cases j with
    | zero => simp [specBufferAux]
    | succ j =>
      rw [specBufferAux]
      simp only [List.get?_cons_succ, ih (i + 1) j]
      have : i + 1 + j = i + (j + 1) := by omega
      rw [this]

theorem foldl_fillScan_eq_applyRows (valid : List (List (Int × Int))) (w : Int) (c : Char) :
    ∀ (ys : List Int) (fb : Framebuffer),
    ys.foldl (fillScan valid w c) fb =
      { fb with buffer :=
          (applyRows
            (fun y row => fillPairsRow w c ((crossingNodes valid y).mergeSort fun a b => a ≤ b) row)
            ys fb.buffer) } := by
  intro ys
  induction ys with
  | nil => intro fb; rfl
  | cons y rest ih =>
    intro fb
    rw [List.foldl_cons, ih]
    rfl

/-- C3: `draw_polygon_filled` computes exactly the specification's
scanline fill: for every scanline `y` in the clipped vertex Y-range, the
crossing abscissas of the edges whose Y-range crosses `y` under the
half-open rule `(yi < y ∧ yj ≥ y) ∨ (yj < y ∧ yi ≥ y)` (so edges with
`yi = yj` are excluded) are truncated to integers (`int()` truncates
toward zero) and sorted ascending, and for each adjacent disjoint pair
`(a, b)` the cells `[max 0 a, min (w-1) b]` are filled inclusive; nothing
else changes. -/
theorem c3_theorem (fb : Framebuffer) (rings : List (List (Int × Int))) (c : Char)
    (h3 : ∀ r ∈ rings, 3 ≤ r.length) (hne : rings ≠ []) :
    drawPolygonFilled fb rings c = specPolygonFill fb rings c := by
  unfold drawPolygonFilled specPolygonFill
  rw [if_neg hne]
  have hfilter : rings.filter (fun r => decide (3 ≤ r.length)) = rings :=
    List.filter_eq_self.mpr fun r hr => decide_eq_true (h3 r hr)
  rw [hfilter, if_neg hne]
  rw [foldl_fillScan_eq_applyRows]
  have hminY : (0 : Int) ≤ max 0 (intListMin ((rings.flatMap id).map Prod.snd)) :=
    le_max_left _ _
  congr 1
  apply List.ext_get?
  intro j
  rw [applyRows_get? _ _ _ j nodup_intRange
    (fun z hz => le_trans hminY (mem_intRange.mp hz).1)]
  rw [specBufferAux_get?]
  cases fb.buffer.get? j with
  | none => rfl
  | some row =>
    simp only [Nat.zero_add, mem_intRange, Option.map_some']
    rw [fillPairsRow_eq_specRowFill]

/-- Witness for C3 at a concrete ring on a concrete framebuffer. -/
theorem c3_witness :
    (∀ r ∈ [Mvt.holeRing], 3 ≤ r.length) ∧ ([Mvt.holeRing] ≠ []) ∧
    drawPolygonFilled (mkFramebuffer 8 6) [Mvt.holeRing] '#' =
      specPolygonFill (mkFramebuffer 8 6) [Mvt.holeRing] '#' :=
  ⟨by decide, by decide,
   c3_theorem (mkFramebuffer 8 6) [Mvt.holeRing] '#' (by decide) (by decide)⟩

end Rend

namespace Cache

/-- A tile key `(z, x, y)`. -/
abbrev Key := Int × Int × Int

/-- `MAX_TILE_CACHE` (ascii_map.py). -/
def MAX_TILE_CACHE : Nat := 512

/-- The process-wide `OrderedDict` tile cache, modelled as an association
list in recency order: the head is the least recently used entry, the
last element the most recently used.  `_cache_put`: assign (an existing
key keeps its value replaced), `move_to_end` (hence: remove any previous
binding and append at the end), then `popitem(last=False)` (drop the
head) when over capacity. -/
def cachePut {V : Type} (cache : List (Key × V)) (k : Key) (v : V) : List (Key × V) :=
  if MAX_TILE_CACHE < (cache.filter (fun kv => decide (kv.1 ≠ k)) ++ [(k, v)]).length then
    (cache.filter (fun kv => decide (kv.1 ≠ k)) ++ [(k, v)]).tail
  else cache.filter (fun kv => decide (kv.1 ≠ k)) ++ [(k, v)]

/-- `tile_cache_size`. -/
def tileCacheSize {V : Type} (cache : List (Key × V)) : Nat := cache.length

/-- `get_decoded_tile`, with the fetch-and-decode composition
(`tiles.fetch_tile` + `tiles.decode_tile`, `{}` on a failed fetch)
abstracted as the port `fetch`.  A hit moves the key to the
most-recently-used end and returns the cached value; a miss fetches,
inserts via `_cache_put` and returns the fetched value.  Returns the new
cache state together with the value. -/
def getDecodedTile {V : Type} (fetch : Key → V) (cache : List (Key × V)) (k : Key) :
    List (Key × V) × V :=
  match cache.find? (fun kv => decide (kv.1 = k)) with
  | some kv => (cache.filter (fun kv2 => decide (kv2.1 ≠ k)) ++ [(k, kv.2)], kv.2)
  | none =>
    let v := fetch k
    (cachePut cache k v, v)

theorem step_miss {V : Type} (fetch : Key → V) (p : List Key) (k : Key) (hk : k ∉ p) :
    (getDecodedTile fetch
        ((p.drop (p.length - MAX_TILE_CACHE)).map fun k' => (k', fetch k')) k).1 =
      ((p ++ [k]).drop ((p.length + 1) - MAX_TILE_CACHE)).map fun k' => (k', fetch k') := by
  have hmem : ∀ kv ∈ (p.drop (p.length - MAX_TILE_CACHE)).map fun k' => (k', fetch k'),
      kv.1 ≠ k := by
    intro kv hkv
    obtain ⟨k', hk', rfl⟩ := List.mem_map.mp hkv
    intro hc
    exact hk (hc ▸ List.mem_of_mem_drop hk')
  have hfind : ((p.drop (p.length - MAX_TILE_CACHE)).map
      fun k' => (k', fetch k')).find? (fun kv => decide (kv.1 = k)) = none :=
    List.find?_eq_none.mpr fun kv hkv => by simpa using hmem kv hkv
  unfold getDecodedTile
  rw [hfind]
  unfold cachePut
  have hfilter : ((p.drop (p.length - MAX_TILE_CACHE)).map
      fun k' => (k', fetch k')).filter (fun kv => decide (kv.1 ≠ k)) =
      (p.drop (p.length - MAX_TILE_CACHE)).map fun k' => (k', fetch k') :=
    List.filter_eq_self.mpr fun kv hkv => decide_eq_true (hmem kv hkv)
  simp only [hfilter]
  have happ : ((p.drop (p.length - MAX_TILE_CACHE)).map fun k' => (k', fetch k')) ++
      [(k, fetch k)] =
      ((p ++ [k]).drop (p.length - MAX_TILE_CACHE)).map fun k' => (k', fetch k') := by
    rw [List.drop_append_of_le_length (by omega), List.map_append]
    rfl
  rw [happ]
  have hlendrop : ((p ++ [k]).drop (p.length - MAX_TILE_CACHE)).length =
      p.length + 1 - (p.length - MAX_TILE_CACHE) := by
    rw [List.length_drop, List.length_append]
    rfl
  by_cases hlen : p.length < MAX_TILE_CACHE
  · rw [if_neg]
    · have h0 : p.length - MAX_TILE_CACHE = 0 := by omega
      have h1 : p.length + 1 - MAX_TILE_CACHE = 0 := by omega
      rw [h0, h1]
    · rw [List.length_map, hlendrop]
      unfold MAX_TILE_CACHE at *
      omega
  · rw [if_pos]
    · rw [← List.map_tail, List.tail_drop]
      have h1 : p.length - MAX_TILE_CACHE + 1 = p.length + 1 - MAX_TILE_CACHE := by
        omega
      rw [h1]
    · rw [List.length_map, hlendrop]
      unfold MAX_TILE_CACHE at *
      omega

theorem fold_invariant {V : Type} (fetch : Key → V) :
    ∀ (ks p : List Key), (p ++ ks).Nodup →
    ks.foldl (fun c k => (getDecodedTile fetch c k).1)
        ((p.drop (p.length - MAX_TILE_CACHE)).map fun k' => (k', fetch k')) =
      ((p ++ ks).drop ((p ++ ks).length - MAX_TILE_CACHE)).map fun k' => (k', fetch k') := by
  intro ks
  induction ks with
  | nil => intro p h; simp
  | cons k ks' ih =>
    intro p h
    rw [List.foldl_cons]
    have hk : k ∉ p := by
      intro hc
      rcases List.nodup_append.mp h with ⟨_, _, h3⟩
      exact h3 hc (List.mem_cons_self k ks')
    rw [step_miss fetch p k hk]
    have h' : ((p ++ [k]) ++ ks').Nodup := by
      rw [List.append_assoc]
      simpa using h
    have hrw : (p ++ [k]).length = p.length + 1 := by
      rw [List.length_append]
      rfl
    have := ih (p ++ [k]) h'
    rw [hrw, List.append_assoc] at this
    simpa using this

/-- C7: from an empty cache, after `get_decoded_tile` on more than 512
distinct keys the cache has exactly 512 entries — the 512 most recently
used keys, in recency order with their fetched values; every get (hit or
miss) makes its key the most recently used entry; and eviction removes
the least recently used (head) entry. -/
theorem c7_theorem {V : Type} (fetch : Key → V) :
    (∀ ks : List Key, ks.Nodup → MAX_TILE_CACHE < ks.length →
      (tileCacheSize (ks.foldl (fun c k => (getDecodedTile fetch c k).1) []) =
          MAX_TILE_CACHE ∧
        ks.foldl (fun c k => (getDecodedTile fetch c k).1) [] =
          (ks.drop (ks.length - MAX_TILE_CACHE)).map fun k' => (k', fetch k'))) ∧
    (∀ (cache : List (Key × V)) (k : Key),
      ((getDecodedTile fetch cache k).1).getLast? =
        some (k, (getDecodedTile fetch cache k).2)) ∧
    (∀ (cache : List (Key × V)) (k : Key) (v : V),
      cache.length = MAX_TILE_CACHE → (∀ kv ∈ cache, kv.1 ≠ k) →
      cachePut cache k v = cache.tail ++ [(k, v)]) := by
  refine ⟨?_, ?_, ?_⟩
  · intro ks hnd hlen
    have h0 : (([] : List Key) ++ ks).Nodup := by simpa using hnd
    have := fold_invariant fetch ks [] h0
    simp only [List.nil_append] at this
    have hempty : (([] : List Key).drop (([] : List Key).length - MAX_TILE_CACHE)).map
        (fun k' => (k', fetch k')) = ([] : List (Key × V)) := by rfl
    rw [hempty] at this
    refine ⟨?_, this⟩
    rw [this]
    unfold tileCacheSize
    rw [List.length_map, List.length_drop]
    omega
  · intro cache k
    unfold getDecodedTile
    cases hf : cache.find? (fun kv => decide (kv.1 = k)) with
    | some kv =>
      simp only
      exact List.getLast?_concat _
    | none =>
      simp only
      unfold cachePut
      split
      · rename_i hover
        cases hfil : cache.filter (fun kv2 => decide (kv2.1 ≠ k)) with
        | nil =>
          rw [hfil] at hover
          simp [MAX_TILE_CACHE] at hover
        | cons a rest =>
          simp only [List.cons_append, List.tail_cons]
          exact List.getLast?_concat _
      · exact List.getLast?_concat _
  · intro cache k v hlen hknot
    unfold cachePut
    have hfil : cache.filter (fun kv => decide (kv.1 ≠ k)) = cache :=
      List.filter_eq_self.mpr fun kv hkv => decide_eq_true (hknot kv hkv)
    rw [hfil, if_pos]
    · cases cache with
      | nil => simp [MAX_TILE_CACHE] at hlen
      | cons a rest => simp
    · rw [List.length_append]
      simp only [List.length_cons, List.length_nil]
      omega

/-- Witness for C7: 513 distinct keys inserted into an empty cache. -/
theorem c7_witness :
    ((List.range 513).map fun (i : Nat) => (((0 : Int), (i : Int), (0 : Int)) : Key)).Nodup ∧
    MAX_TILE_CACHE < ((List.range 513).map fun (i : Nat) => (((0 : Int), (i : Int), (0 : Int)) : Key)).length ∧
    tileCacheSize
      (((List.range 513).map fun (i : Nat) => (((0 : Int), (i : Int), (0 : Int)) : Key)).foldl
        (fun c k => (getDecodedTile (fun _ => (0 : Nat)) c k).1) []) = MAX_TILE_CACHE := by
  have hinj : Function.Injective (fun (i : Nat) => (((0 : Int), (i : Int), (0 : Int)) : Key)) := by
    intro a b hab
    simp only [Prod.mk.injEq] at hab
    omega
  have hnd : ((List.range 513).map fun (i : Nat) => (((0 : Int), (i : Int), (0 : Int)) : Key)).Nodup :=
    (List.nodup_range 513).map hinj
  have hlen : MAX_TILE_CACHE <
      ((List.range 513).map fun (i : Nat) => (((0 : Int), (i : Int), (0 : Int)) : Key)).length := by
    rw [List.length_map, List.length_range]
    unfold MAX_TILE_CACHE
    omega
  exact ⟨hnd, hlen, ((c7_theorem (fun _ => (0 : Nat))).1 _ hnd hlen).1⟩

end Cache

namespace Coords

open Real

/-- `MAX_LATITUDE` (coords.py). -/
noncomputable def MAX_LATITUDE : ℝ := 85.05112878

/-- Python float `%`: `x - m * floor (x / m)` (result in `[0, m)` for
`m > 0`). -/
noncomputable def pymod (x m : ℝ) : ℝ := x - m * ⌊x / m⌋

/-- `latlon_to_world_pixel` (coords.py), with `tile_size = 256`: machine
floats modelled as exact reals. -/
noncomputable def latlonToWorldPixel (lat lon : ℝ) (zoom : Int) : ℝ × ℝ :=
  ((lon + 180) / 360 * (256 * (2 : ℝ) ^ zoom),
   (0.5 - Real.log
        ((1 + Real.sin (max (min lat MAX_LATITUDE) (-MAX_LATITUDE) * Real.pi / 180)) /
         (1 - Real.sin (max (min lat MAX_LATITUDE) (-MAX_LATITUDE) * Real.pi / 180))) /
      (4 * Real.pi)) * (256 * (2 : ℝ) ^ zoom))

/-- `world_pixel_to_latlon` (coords.py), with `tile_size = 256`. -/
noncomputable def worldPixelToLatlon (x y : ℝ) (zoom : Int) : ℝ × ℝ :=
  (180 / Real.pi * Real.arctan (0.5 *
      (Real.exp (Real.pi - 2 * Real.pi * y / (256 * (2 : ℝ) ^ zoom)) -
       Real.exp (-(Real.pi - 2 * Real.pi * y / (256 * (2 : ℝ) ^ zoom))))),
   x / (256 * (2 : ℝ) ^ zoom) * 360 - 180)

/-- `normalize_view` (ascii_map.py): clamp the zoom to `[0, 14]`, project
to world pixels, wrap `wx` modulo the world size, clamp `wy` to
`[0, world_size - 1]`, and convert back.  Returns
`(lat, lon, zoom, wx, wy, world_size)`. -/
noncomputable def normalizeView (lat lon : ℝ) (zoom : Int) : ℝ × ℝ × Int × ℝ × ℝ × ℝ :=
  let z := max 0 (min zoom 14)
  let wp := latlonToWorldPixel lat lon z
  let worldSize : ℝ := 256 * (2 : ℝ) ^ z
  let wx := pymod wp.1 worldSize
  let wy := max 0 (min wp.2 (worldSize - 1))
  let ll := worldPixelToLatlon wx wy z
  (ll.1, ll.2, z, wx, wy, worldSize)

/-- `pan` (ascii_map.py): normalize, move by cell-aspect-aware steps in
the given direction, wrap/clamp as `normalize_view` does, and convert
back to `(lat, lon)`. -/
noncomputable def pan (lat lon : ℝ) (zoom : Int) (direction : String)
    (stepCells : ℝ) (cellAspect : ℝ) : ℝ × ℝ :=
  let nv := normalizeView lat lon zoom
  let moveX := stepCells * max 0.2 cellAspect
  let moveY := stepCells * (1 : ℝ)
  let wx₁ := if direction = "left" then nv.2.2.2.1 - moveX
    else if direction = "right" then nv.2.2.2.1 + moveX else nv.2.2.2.1
  let wy₁ := if direction = "up" then nv.2.2.2.2.1 - moveY
    else if direction = "down" then nv.2.2.2.2.1 + moveY else nv.2.2.2.2.1
  worldPixelToLatlon (pymod wx₁ nv.2.2.2.2.2)
    (max 0 (min wy₁ (nv.2.2.2.2.2 - 1))) nv.2.2.1

theorem pymod_nonneg {x m : ℝ} (hm : 0 < m) : 0 ≤ pymod x m := by
  unfold pymod
  have h := Int.sub_one_lt_floor (x / m)
  have h2 : (⌊x / m⌋ : ℝ) ≤ x / m := Int.floor_le _
  have := (le_div_iff₀ hm).mp h2
  nlinarith

theorem pymod_lt {x m : ℝ} (hm : 0 < m) : pymod x m < m := by
  unfold pymod
  have h : x / m < ⌊x / m⌋ + 1 := Int.lt_floor_add_one _
  have := (div_lt_iff₀ hm).mp h
  nlinarith

theorem pymod_eq_self {x m : ℝ} (hm : 0 < m) (h0 : 0 ≤ x) (hx : x < m) :
    pymod x m = x := by
  unfold pymod
  have hfl : ⌊x / m⌋ = 0 := by
    rw [Int.floor_eq_zero_iff]
    constructor
    · positivity
    · rw [div_lt_one hm] at *
      exact hx
  rw [hfl]
  ring

theorem sum_exp_I (x : ℝ) :
    ∑ m ∈ Finset.range 8, ((x : ℂ) * Complex.I) ^ m / m.factorial
      = ((1 - x ^ 2 / 2 + x ^ 4 / 24 - x ^ 6 / 720 : ℝ) : ℂ)
        + ((x - x ^ 3 / 6 + x ^ 5 / 120 - x ^ 7 / 5040 : ℝ) : ℂ) * Complex.I := by
  have h2 : Complex.I ^ 2 = -1 := Complex.I_sq
  have h3 : Complex.I ^ 3 = -Complex.I := by rw [pow_succ, h2]; ring
  have h4 : Complex.I ^ 4 = 1 := by rw [show (4 : ℕ) = 2 * 2 from rfl, pow_mul, h2]; ring
  have h5 : Complex.I ^ 5 = Complex.I := by rw [pow_succ, h4, one_mul]
  have h6 : Complex.I ^ 6 = -1 := by rw [pow_succ, h5, Complex.I_mul_I]
  have h7 : Complex.I ^ 7 = -Complex.I := by rw [pow_succ, h6]; ring
  simp only [Finset.sum_range_succ, Finset.sum_range_zero, Nat.factorial]
  push_cast
  ring_nf
  rw [h2, h3, h4, h5, h6, h7]
  ring

theorem cos_poly_bound (x : ℝ) (hx : |x| ≤ 1) :
    |Real.cos x - (1 - x ^ 2 / 2 + x ^ 4 / 24 - x ^ 6 / 720)| ≤ |x| ^ 8 * (9 / 322560) := by
  have hz : Complex.abs ((x : ℂ) * Complex.I) ≤ 1 := by
    rw [map_mul, Complex.abs_I, Complex.abs_ofReal, mul_one]
    exact hx
  have h := Complex.exp_bound hz (show (0 : ℕ) < 8 by norm_num)
  rw [sum_exp_I] at h
  have hre : (Complex.exp ((x : ℂ) * Complex.I)
      - (((1 - x ^ 2 / 2 + x ^ 4 / 24 - x ^ 6 / 720 : ℝ) : ℂ)
        + ((x - x ^ 3 / 6 + x ^ 5 / 120 - x ^ 7 / 5040 : ℝ) : ℂ) * Complex.I)).re
      = Real.cos x - (1 - x ^ 2 / 2 + x ^ 4 / 24 - x ^ 6 / 720) := by
    simp only [Complex.sub_re, Complex.exp_ofReal_mul_I_re, Complex.add_re,
      Complex.mul_re, Complex.I_re, Complex.I_im, Complex.ofReal_re, Complex.ofReal_im,
      Complex.sub_im, Complex.add_im, Complex.mul_im]
    ring
  calc |Real.cos x - (1 - x ^ 2 / 2 + x ^ 4 / 24 - x ^ 6 / 720)|
      = |(Complex.exp ((x : ℂ) * Complex.I)
          - (((1 - x ^ 2 / 2 + x ^ 4 / 24 - x ^ 6 / 720 : ℝ) : ℂ)
            + ((x - x ^ 3 / 6 + x ^ 5 / 120 - x ^ 7 / 5040 : ℝ) : ℂ) * Complex.I)).re| := by
        rw [hre]
    _ ≤ Complex.abs (Complex.exp ((x : ℂ) * Complex.I)
          - (((1 - x ^ 2 / 2 + x ^ 4 / 24 - x ^ 6 / 720 : ℝ) : ℂ)
            + ((x - x ^ 3 / 6 + x ^ 5 / 120 - x ^ 7 / 5040 : ℝ) : ℂ) * Complex.I)) :=
        Complex.abs_re_le_abs _
    _ ≤ Complex.abs ((x : ℂ) * Complex.I) ^ 8 * ((Nat.succ 8 : ℝ) * ((Nat.factorial 8 : ℝ) * 8)⁻¹) := h
    _ = |x| ^ 8 * (9 / 322560) := by
        rw [map_mul, Complex.abs_I, Complex.abs_ofReal, mul_one]
        norm_num [Nat.factorial]

theorem sin_poly_bound (x : ℝ) (hx : |x| ≤ 1) :
    |Real.sin x - (x - x ^ 3 / 6 + x ^ 5 / 120 - x ^ 7 / 5040)| ≤ |x| ^ 8 * (9 / 322560) := by
  have hz : Complex.abs ((x : ℂ) * Complex.I) ≤ 1 := by
    rw [map_mul, Complex.abs_I, Complex.abs_ofReal, mul_one]
    exact hx
  have h := Complex.exp_bound hz (show (0 : ℕ) < 8 by norm_num)
  rw [sum_exp_I] at h
  have him : (Complex.exp ((x : ℂ) * Complex.I)
      - (((1 - x ^ 2 / 2 + x ^ 4 / 24 - x ^ 6 / 720 : ℝ) : ℂ)
        + ((x - x ^ 3 / 6 + x ^ 5 / 120 - x ^ 7 / 5040 : ℝ) : ℂ) * Complex.I)).im
      = Real.sin x - (x - x ^ 3 / 6 + x ^ 5 / 120 - x ^ 7 / 5040) := by
    simp only [Complex.sub_im, Complex.exp_ofReal_mul_I_im, Complex.add_im,
      Complex.mul_im, Complex.I_re, Complex.I_im, Complex.ofReal_re, Complex.ofReal_im,
      Complex.sub_re, Complex.add_re, Complex.mul_re]
    ring
  calc |Real.sin x - (x - x ^ 3 / 6 + x ^ 5 / 120 - x ^ 7 / 5040)|
      = |(Complex.exp ((x : ℂ) * Complex.I)
          - (((1 - x ^ 2 / 2 + x ^ 4 / 24 - x ^ 6 / 720 : ℝ) : ℂ)
            + ((x - x ^ 3 / 6 + x ^ 5 / 120 - x ^ 7 / 5040 : ℝ) : ℂ) * Complex.I)).im| := by
        rw [him]
    _ ≤ Complex.abs (Complex.exp ((x : ℂ) * Complex.I)
          - (((1 - x ^ 2 / 2 + x ^ 4 / 24 - x ^ 6 / 720 : ℝ) : ℂ)
            + ((x - x ^ 3 / 6 + x ^ 5 / 120 - x ^ 7 / 5040 : ℝ) : ℂ) * Complex.I)) :=
        Complex.abs_im_le_abs _
    _ ≤ Complex.abs ((x : ℂ) * Complex.I) ^ 8 * ((Nat.succ 8 : ℝ) * ((Nat.factorial 8 : ℝ) * 8)⁻¹) := h
    _ = |x| ^ 8 * (9 / 322560) := by
        rw [map_mul, Complex.abs_I, Complex.abs_ofReal, mul_one]
        norm_num [Nat.factorial]

theorem exp_quarter_le :
    Real.exp ((3.14159265358979323847 : ℝ) / 4) ≤ 2.1932800507380154708 := by
  have hx : |(3.14159265358979323847 : ℝ) / 4| ≤ 1 := by
    rw [abs_of_pos (by norm_num)]
    norm_num
  have h := Real.exp_bound hx (show (0 : ℕ) < 16 by norm_num)
  have h1 := (abs_sub_le_iff.mp h).1
  have h2 : Real.exp ((3.14159265358979323847 : ℝ) / 4) ≤
      (∑ m ∈ Finset.range 16, ((3.14159265358979323847 : ℝ) / 4) ^ m / m.factorial) +
        |(3.14159265358979323847 : ℝ) / 4| ^ 16 * ((16 : ℕ).succ / ((16 : ℕ).factorial * 16)) := by
    linarith
  refine h2.trans ?_
  rw [abs_of_pos (by norm_num)]
  norm_num [Finset.sum_range_succ, Nat.factorial]

theorem exp_pi_le : Real.exp π ≤ 23.140692632779269607 := by
  have h1 : Real.exp π ≤ Real.exp (3.14159265358979323847 : ℝ) :=
    Real.exp_le_exp.mpr (le_of_lt Real.pi_lt_d20)
  have h2 : (3.14159265358979323847 : ℝ) = (4 : ℕ) * ((3.14159265358979323847 : ℝ) / 4) := by
    push_cast
    ring
  rw [h2, Real.exp_nat_mul] at h1
  refine h1.trans ?_
  calc Real.exp ((3.14159265358979323847 : ℝ) / 4) ^ 4
      ≤ (2.1932800507380154708 : ℝ) ^ 4 :=
        pow_le_pow_left (le_of_lt (Real.exp_pos _)) exp_quarter_le 4
    _ ≤ 23.140692632779269607 := by norm_num

theorem sinh_pi_le : Real.sinh π ≤ 11.548739357257748680 := by
  have hpos := Real.exp_pos π
  have hinv : (23.140692632779269607 : ℝ)⁻¹ ≤ (Real.exp π)⁻¹ :=
    inv_le_inv_of_le hpos exp_pi_le
  rw [Real.sinh_eq, Real.exp_neg]
  have h : (Real.exp π - (Real.exp π)⁻¹) / 2 ≤
      ((23.140692632779269607 : ℝ) - (23.140692632779269607 : ℝ)⁻¹) / 2 := by
    have := exp_pi_le
    linarith
  refine h.trans ?_
  norm_num

theorem sin_scan_le :
    Real.sin (27493729 / 1000000000 * π) ≤ 0.086266738330777099 := by
  have hdU1 : (27493729 / 1000000000 : ℝ) * 3.14159265358979323847 ≤ 1 := by norm_num
  have hd_le : (27493729 / 1000000000 : ℝ) * π ≤
      27493729 / 1000000000 * 3.14159265358979323847 :=
    mul_le_mul_of_nonneg_left (le_of_lt Real.pi_lt_d20) (by norm_num)
  have hmono : Real.sin ((27493729 / 1000000000 : ℝ) * π) ≤
      Real.sin ((27493729 / 1000000000 : ℝ) * 3.14159265358979323847) := by
    apply Real.sin_le_sin_of_le_of_le_pi_div_two
    · have := Real.pi_pos
      nlinarith
    · have h3 := Real.pi_gt_three
      nlinarith
    · exact hd_le
  refine hmono.trans ?_
  have habs : |(27493729 / 1000000000 : ℝ) * 3.14159265358979323847| ≤ 1 := by
    rw [abs_of_pos (by norm_num)]
    exact hdU1
  have h := sin_poly_bound ((27493729 / 1000000000 : ℝ) * 3.14159265358979323847) habs
  have habs2 : |(27493729 / 1000000000 : ℝ) * 3.14159265358979323847| =
      (27493729 / 1000000000 : ℝ) * 3.14159265358979323847 := abs_of_pos (by norm_num)
  rw [habs2] at h
  have h1 := (abs_sub_le_iff.mp h).1
  have h2 : Real.sin ((27493729 / 1000000000 : ℝ) * 3.14159265358979323847) ≤
      ((27493729 / 1000000000 : ℝ) * 3.14159265358979323847)
        - ((27493729 / 1000000000 : ℝ) * 3.14159265358979323847) ^ 3 / 6
        + ((27493729 / 1000000000 : ℝ) * 3.14159265358979323847) ^ 5 / 120
        - ((27493729 / 1000000000 : ℝ) * 3.14159265358979323847) ^ 7 / 5040
        + ((27493729 / 1000000000 : ℝ) * 3.14159265358979323847) ^ 8 * (9 / 322560) := by
    linarith
  refine h2.trans ?_
  norm_num

theorem cos_scan_ge :
    (0.996272076220877882 : ℝ) ≤ Real.cos (27493729 / 1000000000 * π) := by
  have hd_le : (27493729 / 1000000000 : ℝ) * π ≤
      27493729 / 1000000000 * 3.14159265358979323847 :=
    mul_le_mul_of_nonneg_left (le_of_lt Real.pi_lt_d20) (by norm_num)
  have hmono : Real.cos ((27493729 / 1000000000 : ℝ) * 3.14159265358979323847) ≤
      Real.cos ((27493729 / 1000000000 : ℝ) * π) := by
    apply Real.cos_le_cos_of_nonneg_of_le_pi
    · have := Real.pi_pos
      nlinarith
    · have h3 := Real.pi_gt_three
      nlinarith
    · exact hd_le
  refine le_trans ?_ hmono
  have habs : |(27493729 / 1000000000 : ℝ) * 3.14159265358979323847| ≤ 1 := by
    rw [abs_of_pos (by norm_num)]
    norm_num
  have h := cos_poly_bound ((27493729 / 1000000000 : ℝ) * 3.14159265358979323847) habs
  have habs2 : |(27493729 / 1000000000 : ℝ) * 3.14159265358979323847| =
      (27493729 / 1000000000 : ℝ) * 3.14159265358979323847 := abs_of_pos (by norm_num)
  rw [habs2] at h
  have h1 := (abs_sub_le_iff.mp h).2
  have h2 : 1 - ((27493729 / 1000000000 : ℝ) * 3.14159265358979323847) ^ 2 / 2
        + ((27493729 / 1000000000 : ℝ) * 3.14159265358979323847) ^ 4 / 24
        - ((27493729 / 1000000000 : ℝ) * 3.14159265358979323847) ^ 6 / 720
        - ((27493729 / 1000000000 : ℝ) * 3.14159265358979323847) ^ 8 * (9 / 322560) ≤
      Real.cos ((27493729 / 1000000000 : ℝ) * 3.14159265358979323847) := by
    linarith
  refine le_trans ?_ h2
  norm_num

/-- The numeric heart of the Web-Mercator clipping argument:
`arctan (sinh π)`, the largest latitude (in radians, scaled) that the
inverse projection can produce, stays within `MAX_LATITUDE` degrees. -/
theorem arctan_sinh_pi_le :
    Real.arctan (Real.sinh π) ≤ 85.05112878 * π / 180 := by
  have hr_pos : (0 : ℝ) < 27493729 / 1000000000 := by norm_num
  have hd_pos : 0 < (27493729 / 1000000000 : ℝ) * π := by positivity
  have hd_lt_pi : (27493729 / 1000000000 : ℝ) * π < π := by
    have := Real.pi_pos
    nlinarith
  have hsin_pos : 0 < Real.sin ((27493729 / 1000000000 : ℝ) * π) :=
    Real.sin_pos_of_pos_of_lt_pi hd_pos hd_lt_pi
  have hsinh_nonneg : 0 ≤ Real.sinh π := by
    rw [← Real.sinh_zero]
    exact Real.sinh_le_sinh.mpr (le_of_lt Real.pi_pos)
  have hmul : Real.sinh π * Real.sin ((27493729 / 1000000000 : ℝ) * π) ≤
      Real.cos ((27493729 / 1000000000 : ℝ) * π) := by
    have h1 : Real.sinh π * Real.sin ((27493729 / 1000000000 : ℝ) * π) ≤
        (11.548739357257748680 : ℝ) * 0.086266738330777099 := by
      apply mul_le_mul sinh_pi_le sin_scan_le (le_of_lt hsin_pos)
      norm_num
    refine h1.trans ?_
    refine le_trans ?_ cos_scan_ge
    norm_num
  have htan : Real.sinh π ≤ Real.tan (π / 2 - 27493729 / 1000000000 * π) := by
    rw [Real.tan_pi_div_two_sub, Real.tan_eq_sin_div_cos, inv_div]
    rw [le_div_iff₀ hsin_pos]
    exact hmul
  have harctan := Real.arctan_strictMono.monotone htan
  have heq : Real.arctan (Real.tan (π / 2 - 27493729 / 1000000000 * π)) =
      π / 2 - 27493729 / 1000000000 * π := by
    apply Real.arctan_tan
    · have := Real.pi_pos
      nlinarith
    · have := Real.pi_pos
      nlinarith
  rw [heq] at harctan
  refine harctan.trans (le_of_eq ?_)
  have hc : (85.05112878 : ℝ) / 180 = 1 / 2 - 27493729 / 1000000000 := by norm_num
  field_simp
  nlinarith [hc]

theorem abs_arctan_sinh_le {n : ℝ} (h1 : -π ≤ n) (h2 : n ≤ π) :
    |Real.arctan (Real.sinh n)| ≤ 85.05112878 * π / 180 := by
  rw [abs_le]
  constructor
  · have hm : Real.arctan (Real.sinh (-π)) ≤ Real.arctan (Real.sinh n) :=
      Real.arctan_strictMono.monotone (Real.sinh_le_sinh.mpr h1)
    rw [Real.sinh_neg, Real.arctan_neg] at hm
    linarith [arctan_sinh_pi_le]
  · have hm : Real.arctan (Real.sinh n) ≤ Real.arctan (Real.sinh π) :=
      Real.arctan_strictMono.monotone (Real.sinh_le_sinh.mpr h2)
    linarith [arctan_sinh_pi_le]

/-- The Mercator Y formula evaluated at the latitude produced by the
inverse projection returns the original `wy` (exact real arithmetic, for
`wy` in the clamped world range). -/
theorem forward_y_of_inverse (S wy : ℝ) (hS : 0 < S)
    (hwy1 : 0 ≤ wy) (hwy2 : wy ≤ S - 1) :
    (0.5 - Real.log
        ((1 + Real.sin (max (min (180 / π * Real.arctan (0.5 *
              (Real.exp (π - 2 * π * wy / S) - Real.exp (-(π - 2 * π * wy / S)))))
            MAX_LATITUDE) (-MAX_LATITUDE) * π / 180)) /
         (1 - Real.sin (max (min (180 / π * Real.arctan (0.5 *
              (Real.exp (π - 2 * π * wy / S) - Real.exp (-(π - 2 * π * wy / S)))))
            MAX_LATITUDE) (-MAX_LATITUDE) * π / 180))) /
      (4 * π)) * S = wy := by
  have hpi := Real.pi_pos
  have hSne : S ≠ 0 := ne_of_gt hS
  -- the loop variable of the inverse projection
  set n : ℝ := π - 2 * π * wy / S with hn
  have hsinh : 0.5 * (Real.exp n - Real.exp (-n)) = Real.sinh n := by
    rw [Real.sinh_eq]
    ring
  have hn2 : n ≤ π := by
    have : 0 ≤ 2 * π * wy / S := by positivity
    rw [hn]
    linarith
  have hn1 : -π ≤ n := by
    have hlt : wy / S ≤ 1 := by
      rw [div_le_one hS]
      linarith
    have : 2 * π * wy / S ≤ 2 * π := by
      rw [mul_div_assoc]
      nlinarith
    rw [hn]
    linarith
  rw [hsinh]
  set A : ℝ := Real.arctan (Real.sinh n) with hA
  -- the produced latitude is inside the clipping range
  have habs : |180 / π * A| ≤ 85.05112878 := by
    have h := abs_arctan_sinh_le hn1 hn2
    rw [abs_mul, abs_of_pos (show (0 : ℝ) < 180 / π by positivity)]
    calc 180 / π * |Real.arctan (Real.sinh n)|
        ≤ 180 / π * (85.05112878 * π / 180) :=
          mul_le_mul_of_nonneg_left h (by positivity)
      _ = 85.05112878 := by field_simp; ring
  rw [abs_le] at habs
  have hclamp : max (min (180 / π * A) MAX_LATITUDE) (-MAX_LATITUDE) = 180 / π * A := by
    unfold MAX_LATITUDE
    rw [min_eq_left habs.2, max_eq_left habs.1]
  rw [hclamp]
  have hθ : 180 / π * A * π / 180 = A := by
    field_simp
  rw [hθ]
  have hsin : Real.sin A = Real.sinh n / Real.cosh n := by
    rw [hA, Real.sin_arctan]
    rw [show 1 + Real.sinh n ^ 2 = Real.cosh n ^ 2 by rw [Real.cosh_sq]; ring,
      Real.sqrt_sq (Real.cosh_pos n).le]
  rw [hsin]
  have hc := Real.cosh_pos n
  have hratio : (1 + Real.sinh n / Real.cosh n) / (1 - Real.sinh n / Real.cosh n) =
      Real.exp (2 * n) := by
    have hca := Real.cosh_add_sinh n
    have hcs := Real.cosh_sub_sinh n
    have hcsne : Real.cosh n - Real.sinh n ≠ 0 := by
      rw [hcs]
      exact ne_of_gt (Real.exp_pos _)
    field_simp
    rw [← Real.exp_add]
    congr 1
    ring
  rw [hratio, Real.log_exp, hn]
  field_simp
  ring

theorem roundtrip_lon (lat lon : ℝ) (zoom : Int) :
    (worldPixelToLatlon (latlonToWorldPixel lat lon zoom).1
      (latlonToWorldPixel lat lon zoom).2 zoom).2 = lon := by
  have hS : (0 : ℝ) < 256 * (2 : ℝ) ^ zoom := by positivity
  unfold latlonToWorldPixel worldPixelToLatlon
  dsimp only
  field_simp
  ring

theorem roundtrip_lat (lat lon : ℝ) (zoom : Int)
    (hlat1 : -85.05 ≤ lat) (hlat2 : lat ≤ 85.05) :
    (worldPixelToLatlon (latlonToWorldPixel lat lon zoom).1
      (latlonToWorldPixel lat lon zoom).2 zoom).1 = lat := by
  have hpi := Real.pi_pos
  have hS : (0 : ℝ) < 256 * (2 : ℝ) ^ zoom := by positivity
  have hSne : (256 * (2 : ℝ) ^ zoom) ≠ 0 := ne_of_gt hS
  unfold latlonToWorldPixel worldPixelToLatlon
  dsimp only
  have hclamp : max (min lat MAX_LATITUDE) (-MAX_LATITUDE) = lat := by
    unfold MAX_LATITUDE
    rw [min_eq_left (by linarith), max_eq_left (by linarith)]
  rw [hclamp]
  have hθ1 : -(π / 2) < lat * π / 180 := by nlinarith
  have hθ2 : lat * π / 180 < π / 2 := by nlinarith
  have hc : 0 < Real.cos (lat * π / 180) := Real.cos_pos_of_mem_Ioo ⟨hθ1, hθ2⟩
  have hs2 : Real.sin (lat * π / 180) ^ 2 < 1 := by
    nlinarith [Real.cos_sq' (lat * π / 180), mul_pos hc hc]
  have habs : |Real.sin (lat * π / 180)| < 1 := by
    rw [← sq_lt_one_iff_abs_lt_one]
    exact hs2
  have hs1 : Real.sin (lat * π / 180) < 1 := (abs_lt.mp habs).2
  have hs0 : -1 < Real.sin (lat * π / 180) := (abs_lt.mp habs).1
  have h1m : (0 : ℝ) < 1 - Real.sin (lat * π / 180) := by linarith
  have h1p : (0 : ℝ) < 1 + Real.sin (lat * π / 180) := by linarith
  have hnval : π - 2 * π * ((0.5 - Real.log
        ((1 + Real.sin (lat * π / 180)) / (1 - Real.sin (lat * π / 180))) /
        (4 * π)) * (256 * (2 : ℝ) ^ zoom)) / (256 * (2 : ℝ) ^ zoom)
      = Real.log ((1 + Real.sin (lat * π / 180)) / (1 - Real.sin (lat * π / 180))) / 2 := by
    field_simp
    ring
  rw [hnval]
  rw [show (0.5 : ℝ) * (Real.exp (Real.log
        ((1 + Real.sin (lat * π / 180)) / (1 - Real.sin (lat * π / 180))) / 2)
      - Real.exp (-(Real.log
        ((1 + Real.sin (lat * π / 180)) / (1 - Real.sin (lat * π / 180))) / 2)))
      = Real.sinh (Real.log
        ((1 + Real.sin (lat * π / 180)) / (1 - Real.sin (lat * π / 180))) / 2) by
    rw [Real.sinh_eq]; ring]
  have hL : Real.log ((1 + Real.sin (lat * π / 180)) / (1 - Real.sin (lat * π / 180))) / 2
      = Real.log ((1 + Real.sin (lat * π / 180)) / Real.cos (lat * π / 180)) := by
    have hsq : (1 + Real.sin (lat * π / 180)) / (1 - Real.sin (lat * π / 180))
        = ((1 + Real.sin (lat * π / 180)) / Real.cos (lat * π / 180)) ^ 2 := by
      rw [div_pow, Real.cos_sq']
      rw [div_eq_div_iff (by linarith) (by nlinarith)]
      ring
    rw [hsq, Real.log_pow]
    push_cast
    ring
  rw [hL, Real.sinh_log (by positivity)]
  have htan : ((1 + Real.sin (lat * π / 180)) / Real.cos (lat * π / 180)
        - ((1 + Real.sin (lat * π / 180)) / Real.cos (lat * π / 180))⁻¹) / 2
      = Real.tan (lat * π / 180) := by
    rw [Real.tan_eq_sin_div_cos, inv_div]
    rw [div_eq_div_iff (by norm_num) (ne_of_gt hc)]
    field_simp
    nlinarith [Real.sin_sq_add_cos_sq (lat * π / 180)]
  rw [htan, Real.arctan_tan hθ1 hθ2]
  field_simp
  ring

/-- C4: for `lat ∈ [-85.05, 85.05]`, `lon ∈ [-180, 180)` and integer
`zoom ∈ [0, 14]`, `world_pixel_to_latlon (latlon_to_world_pixel lat lon z) z`
returns `(lat, lon)` within `1e-6` degrees in each component (in exact real
arithmetic the roundtrip is exact, so the bound holds). -/
theorem c4_theorem (lat lon : ℝ) (zoom : Int)
    (hlat1 : -85.05 ≤ lat) (hlat2 : lat ≤ 85.05)
    (hlon1 : -180 ≤ lon) (hlon2 : lon < 180)
    (hz1 : 0 ≤ zoom) (hz2 : zoom ≤ 14) :
    |(worldPixelToLatlon (latlonToWorldPixel lat lon zoom).1
        (latlonToWorldPixel lat lon zoom).2 zoom).1 - lat| ≤ 1e-6 ∧
    |(worldPixelToLatlon (latlonToWorldPixel lat lon zoom).1
        (latlonToWorldPixel lat lon zoom).2 zoom).2 - lon| ≤ 1e-6 := by
  rw [roundtrip_lat lat lon zoom hlat1 hlat2, roundtrip_lon lat lon zoom]
  norm_num

theorem c4_witness :
    (-85.05 ≤ (20 : ℝ) ∧ (20 : ℝ) ≤ 85.05 ∧ -180 ≤ (30 : ℝ) ∧ (30 : ℝ) < 180 ∧
      (0 : Int) ≤ 3 ∧ (3 : Int) ≤ 14) ∧
    (|(worldPixelToLatlon (latlonToWorldPixel 20 30 3).1
        (latlonToWorldPixel 20 30 3).2 3).1 - 20| ≤ 1e-6 ∧
     |(worldPixelToLatlon (latlonToWorldPixel 20 30 3).1
        (latlonToWorldPixel 20 30 3).2 3).2 - 30| ≤ 1e-6) :=
  ⟨⟨by norm_num, by norm_num, by norm_num, by norm_num, by norm_num, by norm_num⟩,
   c4_theorem 20 30 3 (by norm_num) (by norm_num) (by norm_num) (by norm_num)
     (by norm_num) (by norm_num)⟩

theorem normalizeView_of_canonical (z : Int) (hz1 : 0 ≤ z) (hz2 : z ≤ 14)
    (wx wy : ℝ) (hwx1 : 0 ≤ wx) (hwx2 : wx < 256 * (2 : ℝ) ^ z)
    (hwy1 : 0 ≤ wy) (hwy2 : wy ≤ 256 * (2 : ℝ) ^ z - 1) :
    normalizeView (worldPixelToLatlon wx wy z).1 (worldPixelToLatlon wx wy z).2 z
      = ((worldPixelToLatlon wx wy z).1, (worldPixelToLatlon wx wy z).2, z, wx, wy,
         256 * (2 : ℝ) ^ z) := by
  have hS : (0 : ℝ) < 256 * (2 : ℝ) ^ z := by positivity
  have hSne : (256 * (2 : ℝ) ^ z) ≠ 0 := ne_of_gt hS
  have hzc : max 0 (min z 14) = z := by omega
  have h1 : (latlonToWorldPixel (worldPixelToLatlon wx wy z).1
      (worldPixelToLatlon wx wy z).2 z).1 = wx := by
    unfold latlonToWorldPixel worldPixelToLatlon
    dsimp only
    field_simp
    ring
  have h2 : (latlonToWorldPixel (worldPixelToLatlon wx wy z).1
      (worldPixelToLatlon wx wy z).2 z).2 = wy := by
    unfold latlonToWorldPixel worldPixelToLatlon
    dsimp only
    exact forward_y_of_inverse (256 * (2 : ℝ) ^ z) wy hS hwy1 hwy2
  simp only [normalizeView, hzc, h1, h2]
  rw [pymod_eq_self hS hwx1 hwx2, min_eq_left hwy2, max_eq_right hwy1]

/-- C5: `normalize_view` is idempotent — applying it to the
`(lat, lon, zoom)` components of its own output returns the identical
`(lat, lon, zoom, wx, wy, world_size)` tuple. -/
theorem c5_theorem (lat lon : ℝ) (zoom : Int) :
    normalizeView (normalizeView lat lon zoom).1 (normalizeView lat lon zoom).2.1
        (normalizeView lat lon zoom).2.2.1
      = normalizeView lat lon zoom := by
  have hz1 : (0 : Int) ≤ max 0 (min zoom 14) := by omega
  have hz2 : max 0 (min zoom 14) ≤ 14 := by omega
  have hS : (0 : ℝ) < 256 * (2 : ℝ) ^ (max 0 (min zoom 14)) := by positivity
  have hwx1 : 0 ≤ pymod (latlonToWorldPixel lat lon (max 0 (min zoom 14))).1
      (256 * (2 : ℝ) ^ (max 0 (min zoom 14))) := pymod_nonneg hS
  have hwx2 : pymod (latlonToWorldPixel lat lon (max 0 (min zoom 14))).1
        (256 * (2 : ℝ) ^ (max 0 (min zoom 14)))
      < 256 * (2 : ℝ) ^ (max 0 (min zoom 14)) := pymod_lt hS
  have hwy1 : (0 : ℝ) ≤ max 0 (min (latlonToWorldPixel lat lon (max 0 (min zoom 14))).2
      (256 * (2 : ℝ) ^ (max 0 (min zoom 14)) - 1)) := le_max_left _ _
  have hwy2 : max 0 (min (latlonToWorldPixel lat lon (max 0 (min zoom 14))).2
        (256 * (2 : ℝ) ^ (max 0 (min zoom 14)) - 1))
      ≤ 256 * (2 : ℝ) ^ (max 0 (min zoom 14)) - 1 := by
    apply max_le _ (min_le_right _ _)
    have h1 : (1 : ℝ) ≤ (2 : ℝ) ^ (max 0 (min zoom 14)) := one_le_zpow₀ (by norm_num) hz1
    linarith
  have hnv : normalizeView lat lon zoom =
      ((worldPixelToLatlon
          (pymod (latlonToWorldPixel lat lon (max 0 (min zoom 14))).1
            (256 * (2 : ℝ) ^ (max 0 (min zoom 14))))
          (max 0 (min (latlonToWorldPixel lat lon (max 0 (min zoom 14))).2
            (256 * (2 : ℝ) ^ (max 0 (min zoom 14)) - 1)))
          (max 0 (min zoom 14))).1,
       (worldPixelToLatlon
          (pymod (latlonToWorldPixel lat lon (max 0 (min zoom 14))).1
            (256 * (2 : ℝ) ^ (max 0 (min zoom 14))))
          (max 0 (min (latlonToWorldPixel lat lon (max 0 (min zoom 14))).2
            (256 * (2 : ℝ) ^ (max 0 (min zoom 14)) - 1)))
          (max 0 (min zoom 14))).2,
       max 0 (min zoom 14),
       pymod (latlonToWorldPixel lat lon (max 0 (min zoom 14))).1
         (256 * (2 : ℝ) ^ (max 0 (min zoom 14))),
       max 0 (min (latlonToWorldPixel lat lon (max 0 (min zoom 14))).2
         (256 * (2 : ℝ) ^ (max 0 (min zoom 14)) - 1)),
       256 * (2 : ℝ) ^ (max 0 (min zoom 14))) := rfl
  rw [hnv]
  dsimp only
  exact normalizeView_of_canonical (max 0 (min zoom 14)) hz1 hz2 _ _ hwx1 hwx2 hwy1 hwy2

theorem worldPixelToLatlon_mid (x : ℝ) :
    worldPixelToLatlon x 128 0 = (0, x / 256 * 360 - 180) := by
  unfold worldPixelToLatlon
  rw [zpow_zero]
  rw [show π - 2 * π * (128 : ℝ) / (256 * 1) = 0 by ring]
  rw [neg_zero, Real.exp_zero]
  norm_num [Real.arctan_zero, Prod.mk.injEq]

theorem latlonToWorldPixel_zero : latlonToWorldPixel 0 0 0 = (128, 128) := by
  unfold latlonToWorldPixel MAX_LATITUDE
  rw [zpow_zero]
  rw [show max (min (0 : ℝ) 85.05112878) (-85.05112878) = 0 by
    rw [min_eq_left (by norm_num), max_eq_left (by norm_num)]]
  rw [zero_mul, zero_div, Real.sin_zero]
  norm_num [Real.log_one, Prod.mk.injEq]

theorem normalizeView_zero : normalizeView 0 0 0 = (0, 0, 0, 128, 128, 256) := by
  have hz : max 0 (min (0 : Int) 14) = 0 := by decide
  have hpymod : pymod 128 256 = 128 :=
    pymod_eq_self (by norm_num) (by norm_num) (by norm_num)
  have hclamp : max (0 : ℝ) (min 128 (256 * (2 : ℝ) ^ (0 : Int) - 1)) = 128 := by
    rw [zpow_zero]
    rw [min_eq_left (by norm_num), max_eq_right (by norm_num)]
  have h2 : worldPixelToLatlon 128 128 0 = (0, 0) := by
    rw [worldPixelToLatlon_mid]
    norm_num
  simp only [normalizeView, hz, latlonToWorldPixel_zero]
  rw [show (256 * (2 : ℝ) ^ (0 : Int)) = 256 by rw [zpow_zero]; norm_num] at *
  simp only [hpymod]
  rw [show max (0 : ℝ) (min 128 (256 - 1)) = 128 by
    rw [min_eq_left (by norm_num), max_eq_right (by norm_num)]]
  rw [h2]

/-- C8: panning right from the origin view by 10 cells with cell aspect
0.6 moves the longitude to a small positive value (135/16 degrees),
panning left gives the same magnitude with negative sign, and both calls
return latitude 0. -/
theorem c8_theorem :
    pan 0 0 0 "right" 10 0.6 = (0, 135 / 16) ∧
    pan 0 0 0 "left" 10 0.6 = (0, -(135 / 16)) ∧
    (0 : ℝ) < 135 / 16 ∧ (135 / 16 : ℝ) < 10 := by
  have hmax : max (0.2 : ℝ) 0.6 = 0.6 := max_eq_right (by norm_num)
  have hpym_r : pymod (128 + 10 * (0.6 : ℝ)) 256 = 134 := by
    rw [show (128 : ℝ) + 10 * 0.6 = 134 by norm_num]
    exact pymod_eq_self (by norm_num) (by norm_num) (by norm_num)
  have hpym_l : pymod (128 - 10 * (0.6 : ℝ)) 256 = 122 := by
    rw [show (128 : ℝ) - 10 * 0.6 = 122 by norm_num]
    exact pymod_eq_self (by norm_num) (by norm_num) (by norm_num)
  have hcl : max (0 : ℝ) (min 128 (256 - 1)) = 128 := by
    rw [min_eq_left (by norm_num), max_eq_right (by norm_num)]
  refine ⟨?_, ?_, by norm_num, by norm_num⟩
  · simp only [pan, normalizeView_zero, if_true,
      show (("right" : String) = "left") = False from eq_false (by decide),
      show (("right" : String) = "up") = False from eq_false (by decide),
      show (("right" : String) = "down") = False from eq_false (by decide), if_false]
    rw [hmax, hpym_r, hcl, worldPixelToLatlon_mid]
    norm_num
  · simp only [pan, normalizeView_zero, if_true,
      show (("left" : String) = "up") = False from eq_false (by decide),
      show (("left" : String) = "down") = False from eq_false (by decide), if_false]
    rw [hmax, hpym_l, hcl, worldPixelToLatlon_mid]
    norm_num

end Coords

namespace RenderAscii

/-!
`render_ascii` (ascii_map.py).  The tile source is abstracted by an
oracle `tiles : Int → Int → Int → Mvt.LayerDict` standing for
`get_decoded_tile` (network fetch plus the LRU cache, modelled separately
in the `Cache` namespace, always return some decoded layer mapping), and
Python `str()` on decoded property values is abstracted by
`pvText : Mvt.PropVal → String` (the theorems below hold for every such
function).  Layer and property names are ASCII byte strings.
-/

/-- Python `int()` on a float, as truncation of an exact real toward
zero. -/
noncomputable def realPyInt (r : ℝ) : Int := if 0 ≤ r then ⌊r⌋ else ⌈r⌉

/-- An ASCII string literal as the decoder's byte-string key. -/
def strBytes (s : String) : Mvt.Bytes := s.data.map Char.toNat

/-- Python dict lookup `d[k]` / `d.get(k)` on a decoded layer mapping. -/
def layerLookup (d : Mvt.LayerDict) (k : Mvt.Bytes) : Option Mvt.Layer :=
  match d.find? (fun kv => kv.1 = k) with
  | some kv => some kv.2
  | none => none

/-- `props.get(k)` on a feature's property table.  A missing key and a
stored `None` value both come out as `none`, exactly the two cases Python
conflates at every use site below (`get` default, `in`-set test,
`or`-chaining). -/
def propGet (props : List (Mvt.Bytes × Option Mvt.PropVal)) (k : Mvt.Bytes) :
    Option Mvt.PropVal :=
  match props.find? (fun kv => kv.1 = k) with
  | some kv => kv.2
  | none => none

/-- Python truthiness of a decoded property value (`str`/`bytes`:
nonempty; numbers: nonzero, `±0.0` float byte patterns falsy; bool:
itself). -/
def pvTruthy : Mvt.PropVal → Bool
  | .str bs => bs ≠ []
  | .vint n => n ≠ 0
  | .sint i => i ≠ 0
  | .f32 bs => ¬(bs = [0, 0, 0, 0] ∨ bs = [0, 0, 0, 0x80])
  | .f64 bs => ¬(bs = [0, 0, 0, 0, 0, 0, 0, 0] ∨ bs = [0, 0, 0, 0, 0, 0, 0, 0x80])
  | .bytesVal bs => bs ≠ []
  | .boolv b => b

/-- Python `a or b` on two optional property values (`None` and falsy
values select `b`). -/
def pyOrOpt (a b : Option Mvt.PropVal) : Option Mvt.PropVal :=
  match a with
  | some v => if pvTruthy v then some v else b
  | none => b

/-- `world_to_screen` (closure in `render_ascii`):
`int((wx - tl_wx) / cell_aspect), int((wy - tl_wy) / WORLD_PX_PER_CELL_Y)`
with `WORLD_PX_PER_CELL_Y = 1.0`. -/
noncomputable def worldToScreen (tlWx tlWy cellAspect : ℝ) (wx wy : ℝ) : Int × Int :=
  (realPyInt ((wx - tlWx) / cellAspect), realPyInt ((wy - tlWy) / 1))

/-- `tile_point_to_screen`: tile-local coordinates scaled by
`TILE_SIZE / extent` into world pixels (real division; the decoder's
extent is positive in every reachable call). -/
noncomputable def tilePointToScreen (tlWx tlWy cellAspect : ℝ) (tx ty : Int)
    (pt : Int × Int) (extent : Nat) : Int × Int :=
  worldToScreen tlWx tlWy cellAspect
    ((tx : ℝ) * 256 + (pt.1 : ℝ) / (extent : ℝ) * 256)
    ((ty : ℝ) * 256 + (pt.2 : ℝ) / (extent : ℝ) * 256)

/-- Python slicing `l[::step]` for a positive step. -/
def sliceStep {α : Type} (l : List α) (step : Nat) : List α :=
  (List.range l.length).filterMap fun i => if i % step = 0 then l[i]? else none

/-- `simplify_points`: identity below `GEOM_SIMPLIFY_ZOOM = 14` or at
`≤ MAX_GEOM_POINTS = 220` points, else every `step`-th point with the
last point re-appended when the sampling dropped it
(`step = max(2, ceil(len / 220))`). -/
def simplifyPoints (zoom : Int) (points : List (Int × Int)) : List (Int × Int) :=
  if zoom < 14 ∨ points.length ≤ 220 then points
  else
    let step := max 2 ((points.length + 219) / 220)
    let sampled := sliceStep points step
    match points.getLast? with
    | some p => if sampled.getLast? ≠ some p then sampled ++ [p] else sampled
    | none => sampled

/-- Python `str.split()` whitespace (the ASCII whitespace characters;
non-ASCII whitespace is immaterial because `normalize_label_text`
drops every non-ASCII character right after joining). -/
def pyIsSpace (c : Char) : Bool :=
  c = ' ' ∨ c = '\t' ∨ c = '\n' ∨ c = '\r' ∨ c = '\x0b' ∨ c = '\x0c'

/-- `str.split()`: maximal whitespace-free runs, empties dropped. -/
def splitWordsAux : List Char → List Char → List (List Char)
  | [], acc => if acc = [] then [] else [acc.reverse]
  | c :: rest, acc =>
    if pyIsSpace c then
      if acc = [] then splitWordsAux rest []
      else acc.reverse :: splitWordsAux rest []
    else splitWordsAux rest (c :: acc)

/-- `" ".join(words)`. -/
def pyJoinSpace (words : List (List Char)) : List Char :=
  match words with
  | [] => []
  | w :: rest => w ++ rest.flatMap (fun wd => ' ' :: wd)

/-- `normalize_label_text`: collapse whitespace to single spaces, drop
non-ASCII (`encode("ascii", "ignore")`), and truncate to
`MAX_LABEL_LEN = 26` with a `"..."` suffix.  `none` stands for a `None`
raw value. -/
def normalizeLabelText (raw : Option String) : List Char :=
  match raw with
  | none => []
  | some s =>
    let text := pyJoinSpace (splitWordsAux s.data [])
    let text := text.filter fun c => c.toNat ≤ 127
    if text = [] then []
    else if 26 < text.length then text.take 23 ++ ['.', '.', '.']
    else text

/-- `ROAD_LABEL_PRIORITY.get(props.get("class"))`. -/
def roadPriority (v : Option Mvt.PropVal) : Option Nat :=
  if v = some (.str (strBytes "motorway")) then some 0
  else if v = some (.str (strBytes "trunk")) then some 1
  else if v = some (.str (strBytes "primary")) then some 2
  else if v = some (.str (strBytes "secondary")) then some 3
  else if v = some (.str (strBytes "tertiary")) then some 4
  else if v = some (.str (strBytes "minor")) then some 5
  else if v = some (.str (strBytes "service")) then some 6
  else if v = some (.str (strBytes "residential")) then some 6
  else none

/-- `ROAD_CLASS_TO_CHAR` (ascii_map.py); `Char.ofNat 96` is the
backquote glyph of the `path` class. -/
def ROAD_CLASS_TO_CHAR : List (Mvt.Bytes × Char) :=
  [(strBytes "motorway", '='), (strBytes "trunk", '-'),
   (strBytes "primary", '+'), (strBytes "secondary", ';'),
   (strBytes "tertiary", ':'), (strBytes "minor", '.'),
   (strBytes "street", '.'), (strBytes "residential", '.'),
   (strBytes "bridge", '%'), (strBytes "rail", 'x'),
   (strBytes "service", ','), (strBytes "path", Char.ofNat 96)]

/-- `ROAD_CLASS_TO_CHAR.get(props.get("class", ""), ROAD_DEFAULT_CHAR)`
with `ROAD_DEFAULT_CHAR = " "`: the value matches a string key exactly
when it is that key's byte string. -/
def roadClassToChar (v : Option Mvt.PropVal) : Char :=
  match ROAD_CLASS_TO_CHAR.find? (fun kv => v = some (.str kv.1)) with
  | some kv => kv.2
  | none => ' '

/-- The class map of the waterway call `draw_line_layer(..., {}, "|")`:
an empty dict, so every class falls to the `GLYPH_WATERWAY` default. -/
def waterwayClassToChar (_ : Option Mvt.PropVal) : Char := '|'

/-- Membership of `props.get("class")` in `GREEN_LANDUSE_CLASSES`. -/
def isGreenClass (v : Option Mvt.PropVal) : Bool :=
  ["allotments", "cemetery", "farmland", "forest", "garden", "grass",
   "meadow", "nature_reserve", "orchard", "park", "pitch",
   "recreation_ground", "village_green", "wood"].any
    fun s => v = some (.str (strBytes s))

/-- Simplify a decoded ring / line and project every point to screen
cells. -/
noncomputable def ringToScreen (tlWx tlWy cellAspect : ℝ) (zoom tx ty : Int)
    (extent : Nat) (ring : Mvt.Ring) : List (Int × Int) :=
  (simplifyPoints zoom ring).map
    (fun pt => tilePointToScreen tlWx tlWy cellAspect tx ty pt extent)

/-- The per-polygon ring collection of `draw_polygon_layer` /
`draw_green_layer`: projected rings with at least 3 points, in order. -/
noncomputable def polygonScreenRings (tlWx tlWy cellAspect : ℝ) (zoom tx ty : Int)
    (extent : Nat) (polygon : List Mvt.Ring) : List (List (Int × Int)) :=
  (polygon.map (ringToScreen tlWx tlWy cellAspect zoom tx ty extent)).filter
    (fun pts => decide (3 ≤ pts.length))

/-- `draw_polygon_layer`. -/
noncomputable def drawPolygonLayer (tlWx tlWy cellAspect : ℝ) (zoom tx ty : Int)
    (fb : Rend.Framebuffer) (tileData : Mvt.LayerDict) (layerName : Mvt.Bytes)
    (c : Char) (filled : Bool) : Rend.Framebuffer :=
  match layerLookup tileData layerName with
  | none => fb
  | some layer =>
    layer.features.foldl
      (fun fb feat =>
        let polys := match feat.geometry with
          | .polygon rings => [rings]
          | .multiPolygon ps => ps
          | _ => []
        polys.foldl
          (fun fb polygon =>
            let rings := polygonScreenRings tlWx tlWy cellAspect zoom tx ty
              layer.extent polygon
            if rings = [] then fb
            else if filled then Rend.drawPolygonFilled fb rings c
            else rings.foldl (fun fb r => Rend.drawPolyOutline fb r c) fb)
          fb)
      fb

/-- `draw_green_layer`: the `landuse`-or-`landcover` layer, features of a
green class only, always filled with `GLYPH_GREEN`. -/
noncomputable def drawGreenLayer (tlWx tlWy cellAspect : ℝ) (zoom tx ty : Int)
    (fb : Rend.Framebuffer) (tileData : Mvt.LayerDict) : Rend.Framebuffer :=
  match (match layerLookup tileData (strBytes "landuse") with
         | some l => some l
         | none => layerLookup tileData (strBytes "landcover")) with
  | none => fb
  | some layer =>
    layer.features.foldl
      (fun fb feat =>
        if isGreenClass (propGet feat.properties (strBytes "class")) then
          let polys := match feat.geometry with
            | .polygon rings => [rings]
            | .multiPolygon ps => ps
            | _ => []
          polys.foldl
            (fun fb polygon =>
              let rings := polygonScreenRings tlWx tlWy cellAspect zoom tx ty
                layer.extent polygon
              if rings ≠ [] then Rend.drawPolygonFilled fb rings '\'' else fb)
            fb
        else fb)
      fb

/-- `draw_line_layer`, parametrized by the composed class-to-character
lookup. -/
noncomputable def drawLineLayer (tlWx tlWy cellAspect : ℝ) (zoom tx ty : Int)
    (fb : Rend.Framebuffer) (layer : Mvt.Layer)
    (classToChar : Option Mvt.PropVal → Char) : Rend.Framebuffer :=
  layer.features.foldl
    (fun fb feat =>
      let ch := classToChar (propGet feat.properties (strBytes "class"))
      if ch = ' ' then fb
      else
        let lines := match feat.geometry with
          | .lineString c => [c]
          | .multiLineString cs => cs
          | _ => []
        lines.foldl
          (fun fb line =>
            let points := ringToScreen tlWx tlWy cellAspect zoom tx ty
              layer.extent line
            if 2 ≤ points.length then Rend.drawPolyOutline fb points ch else fb)
          fb)
    fb

/-- The candidates one line contributes in
`collect_street_label_candidates`: bounds-checked midpoint of the
simplified line. -/
noncomputable def lineCandidate (tlWx tlWy cellAspect : ℝ)
    (zoom tx ty width height : Int) (extent : Nat) (p : Nat) (text : List Char)
    (line : Mvt.Ring) : List (Nat × Int × Int × List Char) :=
  if line.length < 2 then []
  else
    let simplified := simplifyPoints zoom line
    if simplified = [] then []
    else
      let mid := simplified.getD (simplified.length / 2) (0, 0)
      let s := tilePointToScreen tlWx tlWy cellAspect tx ty mid extent
      if s.1 < 0 ∨ width ≤ s.1 ∨ s.2 < 0 ∨ height ≤ s.2 then []
      else [(p, s.2, s.1, text)]

/-- The candidates one feature contributes: road class filtered through
`ROAD_LABEL_PRIORITY`, label text from `name_en or name`. -/
noncomputable def featureCandidates (tlWx tlWy cellAspect : ℝ)
    (zoom tx ty width height : Int) (extent : Nat)
    (pvText : Mvt.PropVal → String) (feat : Mvt.Feature) :
    List (Nat × Int × Int × List Char) :=
  match roadPriority (propGet feat.properties (strBytes "class")) with
  | none => []
  | some p =>
    let text := normalizeLabelText
      ((pyOrOpt (propGet feat.properties (strBytes "name_en"))
        (propGet feat.properties (strBytes "name"))).map pvText)
    if text = [] then []
    else
      (match feat.geometry with
       | .lineString c => [c]
       | .multiLineString cs => cs
       | _ => []).flatMap
        (lineCandidate tlWx tlWy cellAspect zoom tx ty width height extent p text)

/-- The flat candidate list of one `collect_street_label_candidates`
call, before the `MAX_LABEL_CANDIDATES` cut-off. -/
noncomputable def tileLabelCandidates (tlWx tlWy cellAspect : ℝ)
    (zoom tx ty width height : Int) (tileData : Mvt.LayerDict)
    (pvText : Mvt.PropVal → String) : List (Nat × Int × Int × List Char) :=
  if zoom < 13 then []
  else
    match layerLookup tileData (strBytes "transportation_name") with
    | none => []
    | some layer =>
      if layer.extent = 0 then []
      else
        layer.features.flatMap
          (featureCandidates tlWx tlWy cellAspect zoom tx ty width height
            layer.extent pvText)

/-- The append-then-check loop body around `out_candidates.append`:
appending stops as soon as the shared list reaches
`MAX_LABEL_CANDIDATES = 600` (checked after each append, so a list
already at the cap still takes one more candidate). -/
def collectLoop (cands : List (Nat × Int × Int × List Char)) :
    List (Nat × Int × Int × List Char) → List (Nat × Int × Int × List Char)
  | [] => cands
  | c :: rest =>
    let cands' := cands ++ [c]
    if 600 ≤ cands'.length then cands' else collectLoop cands' rest

/-- The sort key `(priority, sy, sx)` of `draw_street_labels`
(`mergeSort` is stable, like Python's `sorted`). -/
def candLe (a b : Nat × Int × Int × List Char) : Bool :=
  a.1 < b.1 ∨ (a.1 = b.1 ∧ (a.2.1 < b.2.1 ∨ (a.2.1 = b.2.1 ∧ a.2.2.1 ≤ b.2.2.1)))

/-- `occupied[oy][ox]`. -/
def occAt (occ : List (List Bool)) (x y : Int) : Bool :=
  (occ.getD y.toNat []).getD x.toNat false

/-- `occupied[oy][ox] = True`. -/
def setOcc (occ : List (List Bool)) (x y : Int) : List (List Bool) :=
  occ.set y.toNat ((occ.getD y.toNat []).set x.toNat true)

/-- The `for i, ch in enumerate(text): fb.set_char(start_x + i, y, ch)`
loop. -/
def drawTextAux : Rend.Framebuffer → Int → Int → List Char → Rend.Framebuffer
  | fb, _, _, [] => fb
  | fb, x, y, c :: rest => drawTextAux (Rend.setChar fb x y c) (x + 1) y rest

/-- The framebuffer writes of one label placement: the text characters
and one space of padding on each side when inside the grid. -/
def placeLabel (w : Int) (fb : Rend.Framebuffer) (startX endX y : Int)
    (text : List Char) : Rend.Framebuffer :=
  let fb := drawTextAux fb startX y text
  let fb := if 0 ≤ startX - 1 then Rend.setChar fb (startX - 1) y ' ' else fb
  if endX + 1 < w then Rend.setChar fb (endX + 1) y ' ' else fb

/-- The candidate loop of `draw_street_labels`: dedup by text, bounds
check, occupancy check, then draw the text with one space of padding,
mark the occupancy box, and stop at `max_labels` placements. -/
def drawStreetLabelsLoop (w h maxLabels : Int) :
    List (Nat × Int × Int × List Char) → Rend.Framebuffer → List (List Bool) →
      List (List Char) → Int → Rend.Framebuffer
  | [], fb, _, _, _ => fb
  | (_, y, x, text) :: rest, fb, occ, placedNames, placed =>
    if text ∈ placedNames then
      drawStreetLabelsLoop w h maxLabels rest fb occ placedNames placed
    else
      let labelLen : Int := text.length
      let startX := x - (text.length / 2 : Nat)
      let endX := startX + labelLen - 1
      if startX < 1 ∨ w - 1 ≤ endX ∨ y < 1 ∨ h - 1 ≤ y then
        drawStreetLabelsLoop w h maxLabels rest fb occ placedNames placed
      else
        let blocked := (Rend.intRange (max 0 (y - 1)) (min h (y + 2) - 1)).any
          fun oy => (Rend.intRange (max 0 (startX - 1)) (min w (endX + 2) - 1)).any
            fun ox => occAt occ ox oy
        if blocked then
          drawStreetLabelsLoop w h maxLabels rest fb occ placedNames placed
        else
          let fb := placeLabel w fb startX endX y text
          let occ := (Rend.intRange (max 0 (y - 1)) (min h (y + 2) - 1)).foldl
            (fun occ oy =>
              (Rend.intRange (max 0 (startX - 1)) (min w (endX + 2) - 1)).foldl
                (fun occ ox => setOcc occ ox oy) occ)
            occ
          let placed := placed + 1
          if maxLabels ≤ placed then fb
          else drawStreetLabelsLoop w h maxLabels rest fb occ (text :: placedNames) placed

/-- `draw_street_labels`. -/
def drawStreetLabels (w h : Int) (cands : List (Nat × Int × Int × List Char))
    (fb : Rend.Framebuffer) : Rend.Framebuffer :=
  if cands = [] then fb
  else
    let maxLabels : Int := max 10 (min 48 (w / 4 + h / 3))
    let occupied := List.replicate h.toNat (List.replicate w.toNat false)
    drawStreetLabelsLoop w h maxLabels (cands.mergeSort candLe) fb occupied [] 0

/-- The body of the visible-tile loop of `render_ascii`: skip rows
outside the world, wrap the column, fetch, then draw terrain, water,
buildings, roads and waterways and collect label candidates.  State is
the framebuffer and the shared candidate list. -/
noncomputable def renderTile (tlWx tlWy cellAspect : ℝ)
    (zoom width height worldTiles : Int)
    (tiles : Int → Int → Int → Mvt.LayerDict) (showStreetNames : Bool)
    (pvText : Mvt.PropVal → String)
    (st : Rend.Framebuffer × List (Nat × Int × Int × List Char))
    (txy : Int × Int) :
    Rend.Framebuffer × List (Nat × Int × Int × List Char) :=
  if txy.2 < 0 ∨ worldTiles ≤ txy.2 then st
  else
    let tx := txy.1
    let ty := txy.2
    let tileData := tiles zoom (tx % worldTiles) ty
    if tileData = [] then st
    else
      let fb := st.1
      let fb := if zoom ≤ 14 then
          drawPolygonLayer tlWx tlWy cellAspect zoom tx ty
            (drawGreenLayer tlWx tlWy cellAspect zoom tx ty fb tileData)
            tileData (strBytes "water") '~' true
        else fb
      let fb := drawPolygonLayer tlWx tlWy cellAspect zoom tx ty fb tileData
        (strBytes "water") '~' false
      let fb := drawPolygonLayer tlWx tlWy cellAspect zoom tx ty fb tileData
        (strBytes "building") '#' false
      let fb := match (match layerLookup tileData (strBytes "road") with
                       | some l => some l
                       | none => layerLookup tileData (strBytes "transportation")) with
        | some layer => drawLineLayer tlWx tlWy cellAspect zoom tx ty fb layer
            roadClassToChar
        | none => fb
      let fb := match layerLookup tileData (strBytes "waterway") with
        | some layer => drawLineLayer tlWx tlWy cellAspect zoom tx ty fb layer
            waterwayClassToChar
        | none => fb
      let cands := if showStreetNames then
          collectLoop st.2 (tileLabelCandidates tlWx tlWy cellAspect zoom tx ty
            width height tileData pvText)
        else st.2
      (fb, cands)

/-- `Framebuffer.get_row`: `"".join(self.buffer[y])`. -/
def getRow (fb : Rend.Framebuffer) (y : Nat) : String :=
  String.mk (fb.buffer.getD y [])

/-- The framebuffer at the end of `render_ascii` (after the visible-tile
loop, street labels, and the center marker), for already-clamped
`width`/`height`/`cell_aspect` and normalized `zoom`/`cam_wx`/`cam_wy`. -/
noncomputable def renderFb (tiles : Int → Int → Int → Mvt.LayerDict)
    (pvText : Mvt.PropVal → String) (width height : Int) (cellAspect : ℝ)
    (showStreetNames : Bool) (zoom : Int) (camWx camWy : ℝ) : Rend.Framebuffer :=
  let viewWorldW : ℝ := (width : ℝ) * cellAspect
  let viewWorldH : ℝ := (height : ℝ) * 1
  let tlWx := camWx - viewWorldW / 2
  let tlWy := camWy - viewWorldH / 2
  let worldTiles : Int := 2 ^ zoom.toNat
  let fb := Rend.mkFramebuffer width height
  let minTx : Int := ⌊tlWx / 256⌋
  let maxTx : Int := ⌊(tlWx + viewWorldW) / 256⌋
  let minTy : Int := ⌊tlWy / 256⌋
  let maxTy : Int := ⌊(tlWy + viewWorldH) / 256⌋
  let st := ((Rend.intRange minTx maxTx).flatMap fun tx =>
      (Rend.intRange minTy maxTy).map fun ty => (tx, ty)).foldl
    (renderTile tlWx tlWy cellAspect zoom width height worldTiles tiles
      showStreetNames pvText)
    (fb, [])
  let fb := st.1
  let fb := if showStreetNames then drawStreetLabels width height st.2 fb else fb
  Rend.setChar fb (width / 2) (height / 2) '@'

/-- The dict returned by `render_ascii`. -/
structure RenderResult where
  text : String
  lat : ℝ
  lon : ℝ
  zoom : Int
  width : Int
  height : Int
  cellAspect : ℝ

/-- `render_ascii`: clamp the view parameters, normalize the camera,
render the framebuffer, and join its rows with newlines. -/
noncomputable def renderAscii (tiles : Int → Int → Int → Mvt.LayerDict)
    (pvText : Mvt.PropVal → String) (lat lon : ℝ) (zoom : Int)
    (width height : Int) (cellAspect : ℝ) (showStreetNames : Bool) :
    RenderResult :=
  let width := max 20 (min width 320)
  let height := max 10 (min height 140)
  let cellAspect := max 0.2 (min cellAspect 2.0)
  let nv := Coords.normalizeView lat lon zoom
  let fb := renderFb tiles pvText width height cellAspect showStreetNames
    nv.2.2.1 nv.2.2.2.1 nv.2.2.2.2.1
  { text := String.intercalate "\n"
      ((List.range height.toNat).map fun y => getRow fb y)
    lat := nv.1
    lon := nv.2.1
    zoom := nv.2.2.1
    width := width
    height := height
    cellAspect := cellAspect }

/-- A framebuffer row of the right width containing no newline. -/
def RowGood (w : Int) (row : List Char) : Prop :=
  row.length = w.toNat ∧ '\n' ∉ row

/-- A buffer of `h` good rows. -/
def BufGood (w h : Int) (buf : List (List Char)) : Prop :=
  buf.length = h.toNat ∧ ∀ row ∈ buf, RowGood w row

/-- The framebuffer shape invariant of the rendering pipeline. -/
def FbGood (w h : Int) (fb : Rend.Framebuffer) : Prop :=
  BufGood w h fb.buffer

theorem rowGood_set {w : Int} {row : List Char} (h : RowGood w row) {c : Char}
    (hc : c ≠ '\n') (i : Nat) : RowGood w (row.set i c) := by
  refine ⟨by rw [List.length_set]; exact h.1, ?_⟩
  intro hmem
  rcases List.mem_or_eq_of_mem_set hmem with h1 | h1
  · exact h.2 h1
  · exact hc h1.symm

theorem bufGood_setRow {w h : Int} {buf : List (List Char)} (hb : BufGood w h buf)
    (n : Nat) (f : List Char → List Char)
    (hf : ∀ r, RowGood w r → RowGood w (f r)) :
    BufGood w h (buf.set n (f (buf.getD n []))) := by
  by_cases hn : n < buf.length
  · refine ⟨by rw [List.length_set]; exact hb.1, ?_⟩
    intro row hrow
    rcases List.mem_or_eq_of_mem_set hrow with h1 | h1
    · exact hb.2 row h1
    · subst h1
      rw [List.getD_eq_getElem _ _ hn]
      exact hf _ (hb.2 _ (List.getElem_mem hn))
  · rw [List.set_eq_of_length_le (by omega)]
    exact hb

theorem fbGood_setChar {w h : Int} {fb : Rend.Framebuffer} (hfb : FbGood w h fb)
    {c : Char} (hc : c ≠ '\n') (x y : Int) :
    FbGood w h (Rend.setChar fb x y c) := by
  unfold Rend.setChar
  split
  · exact bufGood_setRow hfb _ _ (fun r hr => rowGood_set hr hc _)
  · exact hfb

/-- Preservation of the invariant through any `foldl` whose step
preserves it. -/
theorem fbGood_foldl {w h : Int} {α : Type}
    (f : Rend.Framebuffer → α → Rend.Framebuffer)
    (hf : ∀ fb a, FbGood w h fb → FbGood w h (f fb a)) :
    ∀ (l : List α) (fb : Rend.Framebuffer), FbGood w h fb →
      FbGood w h (l.foldl f fb)
  | [], _, hfb => hfb
  | a :: rest, fb, hfb => fbGood_foldl f hf rest _ (hf _ _ hfb)

theorem fbGood_drawLineLoop {w h : Int} {c : Char} (hc : c ≠ '\n')
    (x1 y1 sx sy dx dy : Int) :
    ∀ (fuel : Nat) (fb : Rend.Framebuffer) (x0 y0 err : Int), FbGood w h fb →
      FbGood w h (Rend.drawLineLoop c x1 y1 sx sy dx dy fuel fb x0 y0 err)
  | 0, _, _, _, _, hfb => hfb
  | fuel + 1, fb, x0, y0, err, hfb => by
    rw [Rend.drawLineLoop]
    split
    · exact fbGood_setChar hfb hc _ _
    · exact fbGood_drawLineLoop hc x1 y1 sx sy dx dy fuel _ _ _ _
        (fbGood_setChar hfb hc _ _)

theorem fbGood_drawLine {w h : Int} {fb : Rend.Framebuffer}
    (hfb : FbGood w h fb) {c : Char} (hc : c ≠ '\n') (x0 y0 x1 y1 : Int) :
    FbGood w h (Rend.drawLine fb x0 y0 x1 y1 c) := by
  unfold Rend.drawLine
  exact fbGood_drawLineLoop hc _ _ _ _ _ _ _ _ _ _ _ hfb

theorem fbGood_drawPolyOutline {w h : Int} {c : Char} (hc : c ≠ '\n')
    (points : List (Int × Int)) {fb : Rend.Framebuffer} (hfb : FbGood w h fb) :
    FbGood w h (Rend.drawPolyOutline fb points c) := by
  unfold Rend.drawPolyOutline
  exact fbGood_foldl _ (fun fb a h => fbGood_drawLine h hc _ _ _ _) _ _ hfb

theorem rowGood_fillRunRow {wr : Int} {c : Char} (hc : c ≠ '\n') (xs xe : Int)
    {row : List Char} (h : RowGood wr row) :
    RowGood wr (Rend.fillRunRow row xs xe c) := by
  unfold Rend.fillRunRow
  generalize Rend.intRange xs xe = l
  induction l generalizing row with
  | nil => exact h
  | cons a rest ih =>
    simp only [List.foldl_cons]
    exact ih (rowGood_set h hc _)

theorem rowGood_fillPairsRow {wr w : Int} {c : Char} (hc : c ≠ '\n') :
    ∀ (nodes : List Int) (row : List Char), RowGood wr row →
      RowGood wr (Rend.fillPairsRow w c nodes row)
  | [], _, h => h
  | [_], _, h => h
  | _ :: _ :: rest, row, h =>
    rowGood_fillPairsRow hc rest _ (rowGood_fillRunRow hc _ _ h)

theorem fbGood_fillScan {w h : Int} {c : Char} (hc : c ≠ '\n')
    (valid : List (List (Int × Int))) (wArg y : Int) {fb : Rend.Framebuffer}
    (hfb : FbGood w h fb) : FbGood w h (Rend.fillScan valid wArg c fb y) := by
  unfold Rend.fillScan
  exact bufGood_setRow hfb _ _ (fun r hr => rowGood_fillPairsRow hc _ _ hr)

theorem fbGood_drawPolygonFilled {w h : Int} {c : Char} (hc : c ≠ '\n')
    (rings : List (List (Int × Int))) {fb : Rend.Framebuffer}
    (hfb : FbGood w h fb) : FbGood w h (Rend.drawPolygonFilled fb rings c) := by
  simp only [Rend.drawPolygonFilled]
  split
  · exact hfb
  · split
    · exact hfb
    · exact fbGood_foldl _ (fun fb a h => fbGood_fillScan hc _ _ _ h) _ _ hfb

theorem fbGood_drawTextAux {w h : Int} :
    ∀ (text : List Char) (fb : Rend.Framebuffer) (x y : Int), FbGood w h fb →
      '\n' ∉ text → FbGood w h (drawTextAux fb x y text)
  | [], _, _, _, hfb, _ => hfb
  | c :: rest, fb, x, y, hfb, hl =>
    fbGood_drawTextAux rest _ _ _
      (fbGood_setChar hfb (fun he => hl (he ▸ List.mem_cons_self c rest)) _ _)
      (fun hm => hl (List.mem_cons_of_mem _ hm))

theorem fbGood_placeLabel {w h : Int} {fb : Rend.Framebuffer}
    (hfb : FbGood w h fb) {text : List Char} (htext : '\n' ∉ text)
    (wA startX endX y : Int) :
    FbGood w h (placeLabel wA fb startX endX y text) := by
  unfold placeLabel
  have h1 : FbGood w h (drawTextAux fb startX y text) :=
    fbGood_drawTextAux text fb startX y hfb htext
  have h2 : FbGood w h (if 0 ≤ startX - 1 then
      Rend.setChar (drawTextAux fb startX y text) (startX - 1) y ' '
      else drawTextAux fb startX y text) := by
    split
    · exact fbGood_setChar h1 (by decide) _ _
    · exact h1
  show FbGood w h (if endX + 1 < wA then
    Rend.setChar (if 0 ≤ startX - 1 then
        Rend.setChar (drawTextAux fb startX y text) (startX - 1) y ' '
        else drawTextAux fb startX y text) (endX + 1) y ' '
    else if 0 ≤ startX - 1 then
        Rend.setChar (drawTextAux fb startX y text) (startX - 1) y ' '
        else drawTextAux fb startX y text)
  split
  · exact fbGood_setChar h2 (by decide) _ _
  · exact h2

theorem fbGood_drawStreetLabelsLoop {w h : Int} (wA hA maxL : Int) :
    ∀ (cands : List (Nat × Int × Int × List Char)) (fb : Rend.Framebuffer)
      (occ : List (List Bool)) (names : List (List Char)) (placed : Int),
      FbGood w h fb → (∀ cd ∈ cands, '\n' ∉ cd.2.2.2) →
      FbGood w h (drawStreetLabelsLoop wA hA maxL cands fb occ names placed) := by
  intro cands
  induction cands with
  | nil =>
    intro fb occ names placed hfb _
    exact hfb
  | cons cd rest ih =>
    intro fb occ names placed hfb hl
    obtain ⟨p, y, x, text⟩ := cd
    have htext : '\n' ∉ text := hl _ (List.mem_cons_self _ _)
    have hrest : ∀ cd ∈ rest, '\n' ∉ cd.2.2.2 :=
      fun cd hm => hl cd (List.mem_cons_of_mem _ hm)
    simp only [drawStreetLabelsLoop]
    split
    · exact ih fb occ names placed hfb hrest
    · split
      · exact ih fb occ names placed hfb hrest
      · split
        · exact ih fb occ names placed hfb hrest
        · split
          · exact fbGood_placeLabel hfb htext _ _ _ _
          · exact ih _ _ _ _ (fbGood_placeLabel hfb htext _ _ _ _) hrest

theorem fbGood_drawStreetLabels {w h : Int} (wA hA : Int)
    (cands : List (Nat × Int × Int × List Char)) {fb : Rend.Framebuffer}
    (hfb : FbGood w h fb) (hl : ∀ cd ∈ cands, '\n' ∉ cd.2.2.2) :
    FbGood w h (drawStreetLabels wA hA cands fb) := by
  unfold drawStreetLabels
  split
  · exact hfb
  · exact fbGood_drawStreetLabelsLoop wA hA _ _ fb _ [] 0 hfb
      (fun cd hm => hl cd (List.mem_mergeSort.mp hm))

theorem fbGood_drawPolygonLayer {w h : Int} {c : Char} (hc : c ≠ '\n')
    (tlWx tlWy ca : ℝ) (zoom tx ty : Int) (tileData : Mvt.LayerDict)
    (layerName : Mvt.Bytes) (filled : Bool) {fb : Rend.Framebuffer}
    (hfb : FbGood w h fb) :
    FbGood w h (drawPolygonLayer tlWx tlWy ca zoom tx ty fb tileData layerName
      c filled) := by
  unfold drawPolygonLayer
  split
  · exact hfb
  · refine fbGood_foldl _ (fun fb feat h => ?_) _ _ hfb
    refine fbGood_foldl _ (fun fb polygon h => ?_) _ _ h
    dsimp only
    split
    · exact h
    · split
      · exact fbGood_drawPolygonFilled hc _ h
      · exact fbGood_foldl _ (fun fb r hh => fbGood_drawPolyOutline hc _ hh) _ _ h

theorem fbGood_drawGreenLayer {w h : Int} (tlWx tlWy ca : ℝ) (zoom tx ty : Int)
    (tileData : Mvt.LayerDict) {fb : Rend.Framebuffer} (hfb : FbGood w h fb) :
    FbGood w h (drawGreenLayer tlWx tlWy ca zoom tx ty fb tileData) := by
  unfold drawGreenLayer
  split
  · exact hfb
  · refine fbGood_foldl _ (fun fb feat h => ?_) _ _ hfb
    dsimp only
    split
    · refine fbGood_foldl _ (fun fb polygon hh => ?_) _ _ h
      dsimp only
      split
      · exact fbGood_drawPolygonFilled (by decide) _ hh
      · exact hh
    · exact h

theorem fbGood_drawLineLayer {w h : Int} (tlWx tlWy ca : ℝ) (zoom tx ty : Int)
    (layer : Mvt.Layer) (classToChar : Option Mvt.PropVal → Char)
    (hcc : ∀ v, classToChar v ≠ '\n') {fb : Rend.Framebuffer}
    (hfb : FbGood w h fb) :
    FbGood w h (drawLineLayer tlWx tlWy ca zoom tx ty fb layer classToChar) := by
  unfold drawLineLayer
  refine fbGood_foldl _ (fun fb feat h => ?_) _ _ hfb
  dsimp only
  split
  · exact h
  · refine fbGood_foldl _ (fun fb line hh => ?_) _ _ h
    dsimp only
    split
    · exact fbGood_drawPolyOutline (hcc _) _ hh
    · exact hh

theorem roadClassToChar_ne_newline (v : Option Mvt.PropVal) :
    roadClassToChar v ≠ '\n' := by
  unfold roadClassToChar
  split
  · rename_i kv hfind
    have hm := List.mem_of_find?_eq_some hfind
    fin_cases hm <;> decide
  · decide

theorem waterwayClassToChar_ne_newline (v : Option Mvt.PropVal) :
    waterwayClassToChar v ≠ '\n' := by
  unfold waterwayClassToChar
  decide

/-- Every character of a word produced by the splitting loop is
non-whitespace (given the accumulator holds only non-whitespace). -/
theorem splitWordsAux_no_ws :
    ∀ (l acc : List Char), (∀ c ∈ acc, pyIsSpace c = false) →
      ∀ wd ∈ splitWordsAux l acc, ∀ c ∈ wd, pyIsSpace c = false
  | [], acc, hacc => by
    unfold splitWordsAux
    split
    · intro wd hwd
      simp at hwd
    · intro wd hwd c hc
      rw [List.mem_singleton] at hwd
      subst hwd
      exact hacc c (List.mem_reverse.mp hc)
  | a :: rest, acc, hacc => by
    unfold splitWordsAux
    split
    · split
      · exact splitWordsAux_no_ws rest [] (by simp)
      · intro wd hwd
        rcases List.mem_cons.mp hwd with rfl | hm
        · intro c hc
          exact hacc c (List.mem_reverse.mp hc)
        · exact splitWordsAux_no_ws rest [] (by simp) wd hm
    · rename_i hsp
      refine splitWordsAux_no_ws rest (a :: acc) ?_
      intro c hc
      rcases List.mem_cons.mp hc with rfl | hm
      · exact Bool.not_eq_true _ ▸ (by simpa using hsp)
      · exact hacc c hm

theorem mem_pyJoinSpace {c : Char} {ws : List (List Char)}
    (h : c ∈ pyJoinSpace ws) : c = ' ' ∨ ∃ wd ∈ ws, c ∈ wd := by
  unfold pyJoinSpace at h
  match ws, h with
  | w :: rest, h =>
    rcases List.mem_append.mp h with h1 | h1
    · exact .inr ⟨w, List.mem_cons_self _ _, h1⟩
    · rcases List.mem_flatMap.mp h1 with ⟨wd, hwd, hc⟩
      rcases List.mem_cons.mp hc with rfl | hm
      · exact .inl rfl
      · exact .inr ⟨wd, List.mem_cons_of_mem _ hwd, hm⟩

/-- The heart of the label shape argument: normalized label text never
contains a newline (whitespace is collapsed to single spaces and the
truncation suffix is dots). -/
theorem normalizeLabelText_no_newline (raw : Option String) :
    '\n' ∉ normalizeLabelText raw := by
  unfold normalizeLabelText
  match raw with
  | none => simp
  | some s =>
    have ht : '\n' ∉ (pyJoinSpace (splitWordsAux s.data [])).filter
        (fun c => c.toNat ≤ 127) := by
      intro hmem
      have hj := List.mem_filter.mp hmem
      rcases mem_pyJoinSpace hj.1 with h1 | ⟨wd, hwd, hc⟩
      · exact absurd h1 (by decide)
      · have := splitWordsAux_no_ws s.data [] (by simp) wd hwd '\n' hc
        simp [pyIsSpace] at this
    dsimp only
    split
    · simp
    · split
      · intro hmem
        rcases List.mem_append.mp hmem with h1 | h1
        · exact ht (List.take_subset _ _ h1)
        · simp at h1
      · exact ht

theorem lineCandidate_text {tlWx tlWy ca : ℝ} {zoom tx ty width height : Int}
    {extent : Nat} {p : Nat} {text : List Char} {line : Mvt.Ring}
    {cd : Nat × Int × Int × List Char}
    (h : cd ∈ lineCandidate tlWx tlWy ca zoom tx ty width height extent p text
      line) : cd.2.2.2 = text := by
  unfold lineCandidate at h
  split at h
  · simp at h
  · dsimp only at h
    split at h
    · simp at h
    · split at h
      · simp at h
      · rw [List.mem_singleton] at h
        subst h
        rfl

theorem tileLabelCandidates_good (tlWx tlWy ca : ℝ)
    (zoom tx ty width height : Int) (tileData : Mvt.LayerDict)
    (pvText : Mvt.PropVal → String) :
    ∀ cd ∈ tileLabelCandidates tlWx tlWy ca zoom tx ty width height tileData
      pvText, '\n' ∉ cd.2.2.2 := by
  intro cd hcd
  unfold tileLabelCandidates at hcd
  split at hcd
  · simp at hcd
  · split at hcd
    · simp at hcd
    · split at hcd
      · simp at hcd
      · rcases List.mem_flatMap.mp hcd with ⟨feat, _, hfc⟩
        unfold featureCandidates at hfc
        split at hfc
        · simp at hfc
        · dsimp only at hfc
          split at hfc
          · simp at hfc
          · rcases List.mem_flatMap.mp hfc with ⟨line, _, hlc⟩
            rw [lineCandidate_text hlc]
            exact normalizeLabelText_no_newline _

theorem mem_collectLoop :
    ∀ (acc l : List (Nat × Int × Int × List Char))
      (cd : Nat × Int × Int × List Char), cd ∈ collectLoop acc l →
      cd ∈ acc ∨ cd ∈ l
  | _, [], _, h => .inl h
  | acc, c :: rest, cd, h => by
    rw [collectLoop] at h
    split at h
    · rcases List.mem_append.mp h with h1 | h1
      · exact .inl h1
      · rw [List.mem_singleton] at h1
        exact .inr (h1 ▸ List.mem_cons_self _ _)
    · rcases mem_collectLoop _ rest cd h with h1 | h1
      · rcases List.mem_append.mp h1 with h2 | h2
        · exact .inl h2
        · rw [List.mem_singleton] at h2
          exact .inr (h2 ▸ List.mem_cons_self _ _)
      · exact .inr (List.mem_cons_of_mem _ h1)

/-- The per-tile state invariant: good framebuffer and newline-free
candidate texts. -/
def StGood (w h : Int)
    (st : Rend.Framebuffer × List (Nat × Int × Int × List Char)) : Prop :=
  FbGood w h st.1 ∧ ∀ cd ∈ st.2, '\n' ∉ cd.2.2.2

theorem stGood_renderTile {w h : Int} (tlWx tlWy ca : ℝ)
    (zoom width height worldTiles : Int)
    (tiles : Int → Int → Int → Mvt.LayerDict) (ssn : Bool)
    (pvText : Mvt.PropVal → String)
    (st : Rend.Framebuffer × List (Nat × Int × Int × List Char))
    (txy : Int × Int) (hst : StGood w h st) :
    StGood w h (renderTile tlWx tlWy ca zoom width height worldTiles tiles ssn
      pvText st txy) := by
  unfold renderTile
  split
  · exact hst
  · dsimp only
    split
    · exact hst
    · constructor
      · have h1 : FbGood w h (if zoom ≤ 14 then
            drawPolygonLayer tlWx tlWy ca zoom txy.1 txy.2
              (drawGreenLayer tlWx tlWy ca zoom txy.1 txy.2 st.1
                (tiles zoom (txy.1 % worldTiles) txy.2))
              (tiles zoom (txy.1 % worldTiles) txy.2) (strBytes "water") '~' true
          else st.1) := by
          split
          · exact fbGood_drawPolygonLayer (by decide) _ _ _ _ _ _ _ _ _
              (fbGood_drawGreenLayer _ _ _ _ _ _ _ hst.1)
          · exact hst.1
        have h2 := fbGood_drawPolygonLayer (c := '~') (by decide) tlWx tlWy ca
          zoom txy.1 txy.2 (tiles zoom (txy.1 % worldTiles) txy.2)
          (strBytes "water") false h1
        have h3 := fbGood_drawPolygonLayer (c := '#') (by decide) tlWx tlWy ca
          zoom txy.1 txy.2 (tiles zoom (txy.1 % worldTiles) txy.2)
          (strBytes "building") false h2
        have h4 : FbGood w h (match (match layerLookup
              (tiles zoom (txy.1 % worldTiles) txy.2) (strBytes "road") with
            | some l => some l
            | none => layerLookup (tiles zoom (txy.1 % worldTiles) txy.2)
                (strBytes "transportation")) with
          | some layer => drawLineLayer tlWx tlWy ca zoom txy.1 txy.2
              (drawPolygonLayer tlWx tlWy ca zoom txy.1 txy.2
                (drawPolygonLayer tlWx tlWy ca zoom txy.1 txy.2
                  (if zoom ≤ 14 then
                    drawPolygonLayer tlWx tlWy ca zoom txy.1 txy.2
                      (drawGreenLayer tlWx tlWy ca zoom txy.1 txy.2 st.1
                        (tiles zoom (txy.1 % worldTiles) txy.2))
                      (tiles zoom (txy.1 % worldTiles) txy.2)
                      (strBytes "water") '~' true
                  else st.1)
                  (tiles zoom (txy.1 % worldTiles) txy.2) (strBytes "water")
                  '~' false)
                (tiles zoom (txy.1 % worldTiles) txy.2) (strBytes "building")
                '#' false)
              layer roadClassToChar
          | none => drawPolygonLayer tlWx tlWy ca zoom txy.1 txy.2
              (drawPolygonLayer tlWx tlWy ca zoom txy.1 txy.2
                (if zoom ≤ 14 then
                  drawPolygonLayer tlWx tlWy ca zoom txy.1 txy.2
                    (drawGreenLayer tlWx tlWy ca zoom txy.1 txy.2 st.1
                      (tiles zoom (txy.1 % worldTiles) txy.2))
                    (tiles zoom (txy.1 % worldTiles) txy.2) (strBytes "water")
                    '~' true
                else st.1)
                (tiles zoom (txy.1 % worldTiles) txy.2) (strBytes "water")
                '~' false)
              (tiles zoom (txy.1 % worldTiles) txy.2) (strBytes "building")
              '#' false) := by
          split
          · exact fbGood_drawLineLayer _ _ _ _ _ _ _ _
              roadClassToChar_ne_newline h3
          · exact h3
        split
        · exact fbGood_drawLineLayer _ _ _ _ _ _ _ _
            waterwayClassToChar_ne_newline h4
        · exact h4
      · intro cd hcd
        dsimp only at hcd
        split at hcd
        · rcases mem_collectLoop _ _ _ hcd with h1 | h1
          · exact hst.2 cd h1
          · exact tileLabelCandidates_good _ _ _ _ _ _ _ _ _ _ cd h1
        · exact hst.2 cd hcd

theorem fbGood_mkFramebuffer (w h : Int) :
    FbGood w h (Rend.mkFramebuffer w h) := by
  refine ⟨by simp [Rend.mkFramebuffer], ?_⟩
  intro row hrow
  rw [List.eq_of_mem_replicate hrow]
  exact ⟨by simp, by simp⟩

theorem fbGood_renderFb (tiles : Int → Int → Int → Mvt.LayerDict)
    (pvText : Mvt.PropVal → String) (width height : Int) (cellAspect : ℝ)
    (ssn : Bool) (zoom : Int) (camWx camWy : ℝ) :
    FbGood width height
      (renderFb tiles pvText width height cellAspect ssn zoom camWx camWy) := by
  unfold renderFb
  have hst : StGood width height
      (((Rend.intRange ⌊(camWx - (width : ℝ) * cellAspect / 2) / 256⌋
          ⌊(camWx - (width : ℝ) * cellAspect / 2 + (width : ℝ) * cellAspect) / 256⌋).flatMap
        fun tx => (Rend.intRange ⌊(camWy - (height : ℝ) * 1 / 2) / 256⌋
          ⌊(camWy - (height : ℝ) * 1 / 2 + (height : ℝ) * 1) / 256⌋).map
            fun ty => (tx, ty)).foldl
        (renderTile (camWx - (width : ℝ) * cellAspect / 2)
          (camWy - (height : ℝ) * 1 / 2) cellAspect zoom width height
          (2 ^ zoom.toNat) tiles ssn pvText)
        (Rend.mkFramebuffer width height, [])) := by
    generalize ((Rend.intRange _ _).flatMap fun tx =>
      (Rend.intRange _ _).map fun ty => (tx, ty)) = l
    have h0 : StGood width height (Rend.mkFramebuffer width height,
        ([] : List (Nat × Int × Int × List Char))) :=
      ⟨fbGood_mkFramebuffer _ _, by simp⟩
    generalize hgen : (Rend.mkFramebuffer width height,
      ([] : List (Nat × Int × Int × List Char))) = st0 at h0 ⊢
    clear hgen
    induction l generalizing st0 with
    | nil => exact h0
    | cons a rest ih =>
      simp only [List.foldl_cons]
      exact ih _ (stGood_renderTile _ _ _ _ _ _ _ _ _ _ _ _ h0)
  refine fbGood_setChar ?_ (by decide) _ _
  split
  · exact fbGood_drawStreetLabels _ _ _ hst.1 hst.2
  · exact hst.1

/-- C2: for every call, `render_ascii` returns a `text` field that is
exactly `height` newline-separated lines of exactly `width` characters
each, where `width` and `height` are the clamped values
(`width ∈ [20, 320]`, `height ∈ [10, 140]`) echoed in the result.  The
tile oracle and the property-stringification function are universally
quantified. -/
theorem c2_theorem (tiles : Int → Int → Int → Mvt.LayerDict)
    (pvText : Mvt.PropVal → String) (lat lon : ℝ) (zoom width height : Int)
    (cellAspect : ℝ) (showStreetNames : Bool) :
    ∃ ls : List String,
      (renderAscii tiles pvText lat lon zoom width height cellAspect
        showStreetNames).text = String.intercalate "\n" ls ∧
      ls.length = (max 10 (min height 140)).toNat ∧
      (∀ s ∈ ls, s.length = (max 20 (min width 320)).toNat ∧ '\n' ∉ s.data) ∧
      (renderAscii tiles pvText lat lon zoom width height cellAspect
        showStreetNames).width = max 20 (min width 320) ∧
      (renderAscii tiles pvText lat lon zoom width height cellAspect
        showStreetNames).height = max 10 (min height 140) := by
  refine ⟨(List.range (max 10 (min height 140)).toNat).map
    (fun y => getRow (renderFb tiles pvText (max 20 (min width 320))
      (max 10 (min height 140)) (max 0.2 (min cellAspect 2.0)) showStreetNames
      (Coords.normalizeView lat lon zoom).2.2.1
      (Coords.normalizeView lat lon zoom).2.2.2.1
      (Coords.normalizeView lat lon zoom).2.2.2.2.1) y), rfl, ?_, ?_, rfl, rfl⟩
  · simp
  · intro s hs
    rcases List.mem_map.mp hs with ⟨y, hy, rfl⟩
    rw [List.mem_range] at hy
    have hfb := fbGood_renderFb tiles pvText (max 20 (min width 320))
      (max 10 (min height 140)) (max 0.2 (min cellAspect 2.0)) showStreetNames
      (Coords.normalizeView lat lon zoom).2.2.1
      (Coords.normalizeView lat lon zoom).2.2.2.1
      (Coords.normalizeView lat lon zoom).2.2.2.2.1
    have hylt : y < (renderFb tiles pvText (max 20 (min width 320))
        (max 10 (min height 140)) (max 0.2 (min cellAspect 2.0)) showStreetNames
        (Coords.normalizeView lat lon zoom).2.2.1
        (Coords.normalizeView lat lon zoom).2.2.2.1
        (Coords.normalizeView lat lon zoom).2.2.2.2.1).buffer.length := by
      rw [hfb.1]
      exact hy
    have hrow := hfb.2 _ (List.getElem_mem hylt)
    unfold getRow
    rw [List.getD_eq_getElem _ _ hylt]
    exact ⟨hrow.1, hrow.2⟩

end RenderAscii

end AsciiMap
